import Mathlib

/-!
# Verification of the Clean_CSV data-cleaning pipeline

Shallow embedding of the CSV cleaning pipeline (`cleaner.py` and the copy
embedded in `backend/main.py`) over exact rational arithmetic, together with
theorems settling the specification claims.

Conventions:
* pandas cells are `Option ℚ` (numeric) or `Option String` (text); `none` is
  the missing marker (NaN).
* Machine floats are idealised as `ℚ`; comparisons `|z| > t` are embedded in
  the equivalent squared form to stay inside exact arithmetic.
* Library transcendental functions (`np.log1p`, `np.sqrt` inside
  `StandardScaler`) are abstracted as function parameters; the structure of
  every branch around them is embedded faithfully.
-/

set_option autoImplicit false

namespace CleanCSV

/-! ## ASCII case mapping (model of `str.upper()` / `str.lower()` on ASCII) -/

/-- The 26 lower→upper ASCII letter pairs. -/
def upPairs : List (Char × Char) :=
  [('a','A'), ('b','B'), ('c','C'), ('d','D'), ('e','E'), ('f','F'), ('g','G'),
   ('h','H'), ('i','I'), ('j','J'), ('k','K'), ('l','L'), ('m','M'), ('n','N'),
   ('o','O'), ('p','P'), ('q','Q'), ('r','R'), ('s','S'), ('t','T'), ('u','U'),
   ('v','V'), ('w','W'), ('x','X'), ('y','Y'), ('z','Z')]

/-- Model of Python `str.upper` on a single character (ASCII range). -/
def asciiUpper (c : Char) : Char :=
  ((upPairs.find? (fun p => p.1 = c)).map Prod.snd).getD c

/-- Model of Python `str.lower` on a single character (ASCII range). -/
def asciiLower (c : Char) : Char :=
  ((upPairs.find? (fun p => p.2 = c)).map Prod.fst).getD c

theorem asciiUpper_idem (c : Char) : asciiUpper (asciiUpper c) = asciiUpper c := by
  unfold asciiUpper
  cases hf : upPairs.find? (fun p => p.1 = c) with
  | none => simp [hf]
  | some p =>
    have hmem : p ∈ upPairs := List.mem_of_find?_eq_some hf
    have hnone : ∀ q ∈ upPairs, upPairs.find? (fun r => r.1 = q.2) = none := by decide
    simp [hf, hnone p hmem]

theorem asciiUpper_whitespace (c : Char) :
    (asciiUpper c).isWhitespace = c.isWhitespace := by
  unfold asciiUpper
  cases hf : upPairs.find? (fun p => p.1 = c) with
  | none => simp [hf]
  | some p =>
    have hmem : p ∈ upPairs := List.mem_of_find?_eq_some hf
    have hc' := List.find?_some hf
    have hc2 : p.1 = c := by simpa using hc'
    have hws : ∀ q ∈ upPairs, q.1.isWhitespace = false ∧ q.2.isWhitespace = false := by decide
    have := hws p hmem
    simp [hf, ← hc2, this.1, this.2]

/-! ## Whitespace stripping (model of `str.strip()`) -/

/-- Remove trailing whitespace characters (fold formulation). -/
def dropTrailWS (l : List Char) : List Char :=
  l.foldr (fun c acc => if acc = [] ∧ c.isWhitespace then [] else c :: acc) []

/-- Model of Python `str.strip()` on the character list: drop leading then
trailing whitespace. -/
def stripL (l : List Char) : List Char :=
  dropTrailWS (l.dropWhile Char.isWhitespace)

theorem dropTrailWS_cons (c : Char) (t : List Char) :
    dropTrailWS (c :: t) =
      if dropTrailWS t = [] ∧ c.isWhitespace then [] else c :: dropTrailWS t := by
  rfl

theorem dropTrailWS_idem (l : List Char) : dropTrailWS (dropTrailWS l) = dropTrailWS l := by
  induction l with
  | nil => rfl
  | cons c t ih =>
    rw [dropTrailWS_cons]
    by_cases h : dropTrailWS t = [] ∧ c.isWhitespace
    · simp [h]; rfl
    · simp only [h, if_false]
      rw [dropTrailWS_cons, ih]
      simp [h]

/-- `dropTrailWS` keeps the head of the list when the result is nonempty. -/
theorem dropTrailWS_head (c : Char) (t : List Char) :
    dropTrailWS (c :: t) = [] ∨ ∃ r, dropTrailWS (c :: t) = c :: r := by
  rw [dropTrailWS_cons]
  by_cases h : dropTrailWS t = [] ∧ c.isWhitespace
  · simp [h]
  · simp [h]

/-- After `dropWhile isWhitespace` the head (if any) is not whitespace. -/
theorem head_dropWhileWS (l : List Char) (c : Char) (r : List Char)
    (h : l.dropWhile Char.isWhitespace = c :: r) : c.isWhitespace = false := by
  induction l with
  | nil => simp at h
  | cons a t ih =>
    rw [List.dropWhile_cons] at h
    by_cases ha : a.isWhitespace
    · simp [ha] at h; exact ih h
    · simp [ha] at h
      rw [← h.1]
      exact Bool.eq_false_iff.mpr ha

theorem dropWhileWS_stripL (l : List Char) :
    (stripL l).dropWhile Char.isWhitespace = stripL l := by
  unfold stripL
  cases hd : l.dropWhile Char.isWhitespace with
  | nil => rfl
  | cons c r =>
    have hc : c.isWhitespace = false := head_dropWhileWS l c r hd
    rcases dropTrailWS_head c r with h | ⟨s, h⟩
    · rw [h]; rfl
    · rw [h, List.dropWhile_cons, hc]
      simp

theorem stripL_idem (l : List Char) : stripL (stripL l) = stripL l := by
  show dropTrailWS ((stripL l).dropWhile Char.isWhitespace) = stripL l
  rw [dropWhileWS_stripL]
  exact dropTrailWS_idem (l.dropWhile Char.isWhitespace)

/-- String-level strip. -/
def stripStr (s : String) : String := ⟨stripL s.data⟩

/-- String-level upper-casing (ASCII model of `str.upper()`). -/
def upperStr (s : String) : String := ⟨s.data.map asciiUpper⟩

/-- String-level lower-casing (ASCII model of `str.lower()`). -/
def lowerStr (s : String) : String := ⟨s.data.map asciiLower⟩

theorem upperStr_idem (s : String) : upperStr (upperStr s) = upperStr s := by
  unfold upperStr
  simp [List.map_map, Function.comp_def, asciiUpper_idem]

theorem dropWhileWS_map_upper (l : List Char) :
    (l.map asciiUpper).dropWhile Char.isWhitespace =
      (l.dropWhile Char.isWhitespace).map asciiUpper := by
  induction l with
  | nil => rfl
  | cons c t ih =>
    simp only [List.map_cons, List.dropWhile_cons, asciiUpper_whitespace]
    by_cases h : c.isWhitespace
    · simp [h, ih]
    · simp [h]

theorem dropTrailWS_map_upper (l : List Char) :
    dropTrailWS (l.map asciiUpper) = (dropTrailWS l).map asciiUpper := by
  induction l with
  | nil => rfl
  | cons c t ih =>
    simp only [List.map_cons]
    rw [dropTrailWS_cons, dropTrailWS_cons, ih, asciiUpper_whitespace]
    by_cases h : dropTrailWS t = [] ∧ c.isWhitespace
    · simp [h.1, h.2]
    · rcases Decidable.not_and_iff_or_not.mp h with h1 | h1
      · have : (dropTrailWS t).map asciiUpper ≠ [] := by
          simpa using h1
        simp [h1, this]
      · simp [h1]

theorem stripL_map_upper (l : List Char) :
    stripL (l.map asciiUpper) = (stripL l).map asciiUpper := by
  unfold stripL
  rw [dropWhileWS_map_upper, dropTrailWS_map_upper]

theorem stripStr_upperStr (s : String) :
    stripStr (upperStr s) = upperStr (stripStr s) := by
  unfold stripStr upperStr
  simp [stripL_map_upper]

theorem stripStr_idem (s : String) : stripStr (stripStr s) = stripStr s := by
  unfold stripStr
  simp [stripL_idem]

/-! ## String ordering

Python compares strings lexicographically by code point; that is the order
`pd.Categorical` sorts by and `Series.mode()` returns its values in. We use
an explicitly computable comparator (Lean's `String` order instances do not
reduce in the kernel). -/

/-- Strict lexicographic code-point comparison. -/
def charListLt : List Char → List Char → Bool
  | [], [] => false
  | [], _ :: _ => true
  | _ :: _, [] => false
  | a :: as, b :: bs =>
    if a.toNat < b.toNat then true
    else if a.toNat = b.toNat then charListLt as bs
    else false

/-- Lexicographic code-point `≤`. -/
def charListLe : List Char → List Char → Bool
  | [], _ => true
  | _ :: _, [] => false
  | a :: as, b :: bs =>
    if a.toNat < b.toNat then true
    else if a.toNat = b.toNat then charListLe as bs
    else false

/-- The sort order on strings (as a `Prop`-valued relation for
`List.insertionSort`). -/
def strLeP (a b : String) : Prop := charListLe a.data b.data = true

instance : DecidableRel strLeP := fun a b => by unfold strLeP; infer_instance

theorem charListLt_trans :
    ∀ {a b c : List Char}, charListLt a b = true → charListLt b c = true →
      charListLt a c = true := by
  intro a
  induction a with
  | nil =>
    intro b c hab hbc
    cases b with
    | nil => simp [charListLt] at hab
    | cons y bs =>
      cases c with
      | nil => simp [charListLt] at hbc
      | cons z cs => simp [charListLt]
  | cons x as ih =>
    intro b c hab hbc
    cases b with
    | nil => simp [charListLt] at hab
    | cons y bs =>
      cases c with
      | nil => simp [charListLt] at hbc
      | cons z cs =>
        rw [charListLt] at hab hbc ⊢
        by_cases hxy : x.toNat < y.toNat
        · by_cases hyz : y.toNat < z.toNat
          · have : x.toNat < z.toNat := Nat.lt_trans hxy hyz
            simp [this]
          · simp only [hyz, if_false] at hbc
            by_cases hyz2 : y.toNat = z.toNat
            · have : x.toNat < z.toNat := hyz2 ▸ hxy
              simp [this]
            · simp [hyz2] at hbc
        · simp only [hxy, if_false] at hab
          by_cases hxy2 : x.toNat = y.toNat
          · simp only [hxy2, if_true] at hab
            by_cases hyz : y.toNat < z.toNat
            · have : x.toNat < z.toNat := hxy2 ▸ hyz
              simp [this]
            · simp only [hyz, if_false] at hbc
              by_cases hyz2 : y.toNat = z.toNat
              · simp only [hyz2, if_true] at hbc
                have hxz : x.toNat = z.toNat := hxy2.trans hyz2
                have hxz' : ¬ x.toNat < z.toNat := by omega
                simp [hxz', hxz, ih hab hbc]
              · simp [hyz2] at hbc
          · simp [hxy2] at hab

/-! ## Statistics over exact rationals

Cells are `Option ℚ`; `none` models NaN. `validVals` models `Series.dropna()`.
-/

/-- The non-missing values of a column (`dropna`). -/
def validVals (cells : List (Option ℚ)) : List ℚ := cells.filterMap id

/-- `Series.count()`: number of non-missing cells. -/
def validCount (cells : List (Option ℚ)) : ℕ := (validVals cells).length

/-- Arithmetic mean (0 on the empty list, a case all call sites guard). -/
def meanQ (l : List ℚ) : ℚ := l.sum / l.length

/-- Population variance (ddof = 0), as used by `scipy.stats.zscore` and
`sklearn.preprocessing.StandardScaler`. -/
def popVarQ (l : List ℚ) : ℚ := (l.map (fun x => (x - meanQ l) ^ 2)).sum / l.length

/-- Sample variance (ddof = 1), the Bessel-corrected estimator; used only to
state the spec's "sample standard deviation" reading of the z-score test. -/
def sampleVarQ (l : List ℚ) : ℚ :=
  (l.map (fun x => (x - meanQ l) ^ 2)).sum / ((l.length : ℚ) - 1)

/-- One linear-interpolation step at fractional position `h` in the sorted
list `s`: `x_⌊h⌋ + (h - ⌊h⌋) * (x_{⌊h⌋+1} - x_⌊h⌋)` (the out-of-range
neighbour falls back to `x_⌊h⌋`, which is only reached with zero weight). -/
def interpAt (s : List ℚ) (h : ℚ) : ℚ :=
  s.getD (Int.floor h).toNat 0
    + (h - ((Int.floor h).toNat : ℚ))
      * (s.getD ((Int.floor h).toNat + 1) (s.getD (Int.floor h).toNat 0)
          - s.getD (Int.floor h).toNat 0)

/-- `Series.quantile(q)` with pandas' default linear interpolation: sort the
values, take `h = q*(m-1)`, and interpolate between the order statistics at
`⌊h⌋` and `⌊h⌋+1`. Returns 0 on an empty list (pandas returns NaN there; all
call sites guard on the count). -/
def quantileLin (vals : List ℚ) (q : ℚ) : ℚ :=
  match (List.insertionSort (· ≤ ·) vals).length with
  | 0 => 0
  | Nat.succ n => interpAt (List.insertionSort (· ≤ ·) vals) (q * (n : ℚ))

/-- pandas `Series.median()` is the 0.5-quantile with linear interpolation. -/
def medianQ (vals : List ℚ) : ℚ := quantileLin vals (1 / 2)

theorem sorted_getD_mono {s : List ℚ} (hs : List.Sorted (· ≤ ·) s)
    {i j : ℕ} (hij : i ≤ j) (hj : j < s.length) : s.getD i 0 ≤ s.getD j 0 := by
  have hi : i < s.length := lt_of_le_of_lt hij hj
  rw [List.getD_eq_getElem s 0 hi, List.getD_eq_getElem s 0 hj]
  exact List.Sorted.rel_get_of_le hs (by exact_mod_cast hij)

theorem interpAt_mono {s : List ℚ} (hs : List.Sorted (· ≤ ·) s) {n : ℕ}
    (hlen : s.length = n + 1) {h h' : ℚ}
    (hpos : 0 ≤ h) (hle : h ≤ h') (hn : h' ≤ (n : ℚ)) :
    interpAt s h ≤ interpAt s h' := by
  have hpos' : 0 ≤ h' := le_trans hpos hle
  set k : ℕ := (Int.floor h).toNat with hk
  set k' : ℕ := (Int.floor h').toNat with hk'
  have hfl : (0:ℤ) ≤ Int.floor h := Int.le_floor.mpr (by exact_mod_cast hpos)
  have hfl' : (0:ℤ) ≤ Int.floor h' := Int.le_floor.mpr (by exact_mod_cast hpos')
  have hkq : ((k : ℤ) : ℚ) = ((Int.floor h : ℤ) : ℚ) := by
    rw [hk]; exact_mod_cast congrArg (fun z : ℤ => (z : ℚ)) (Int.toNat_of_nonneg hfl)
  have hk'q : ((k' : ℤ) : ℚ) = ((Int.floor h' : ℤ) : ℚ) := by
    rw [hk']; exact_mod_cast congrArg (fun z : ℤ => (z : ℚ)) (Int.toNat_of_nonneg hfl')
  have hkh : (k : ℚ) ≤ h := by
    have := Int.floor_le h; push_cast at hkq ⊢; rw [hkq]; exact this
  have hk'h : (k' : ℚ) ≤ h' := by
    have := Int.floor_le h'; push_cast at hk'q ⊢; rw [hk'q]; exact this
  have hhk1 : h < (k : ℚ) + 1 := by
    have := Int.lt_floor_add_one h; push_cast at hkq ⊢; rw [hkq]; exact_mod_cast this
  have hkk' : k ≤ k' := by
    have : Int.floor h ≤ Int.floor h' := Int.floor_le_floor hle
    exact Int.toNat_le_toNat this
  have hk'n : k' ≤ n := by
    have h1' : Int.floor h' ≤ Int.floor ((n : ℚ)) := Int.floor_le_floor hn
    have h2' : Int.floor ((n : ℚ)) = (n : ℤ) := Int.floor_natCast n
    rw [h2'] at h1'
    omega
  unfold interpAt
  rw [← hk, ← hk']
  rcases Nat.eq_or_lt_of_le hkk' with heq | hlt
  · -- same segment: the slope is non-negative and the fraction grows
    rw [← heq]
    have hxk1 : s.getD k 0 ≤ s.getD (k + 1) (s.getD k 0) := by
      rcases Nat.lt_or_ge (k + 1) s.length with hin | hout
      · rw [List.getD_eq_getElem s _ hin,
          List.getD_eq_getElem s 0 (Nat.lt_of_succ_lt hin),
          ← List.getD_eq_getElem s 0 (Nat.lt_of_succ_lt hin),
          ← List.getD_eq_getElem s 0 hin]
        exact sorted_getD_mono hs (Nat.le_succ k) hin
      · rw [List.getD_eq_default s _ hout]
    nlinarith [hxk1, hle, sub_nonneg.mpr hkh]
  · -- the position moved to a strictly later segment
    have hk1len : k + 1 < s.length := by omega
    have hklen : k < s.length := by omega
    have hk'len : k' < s.length := by omega
    have hB : s.getD (k + 1) (s.getD k 0) = s.getD (k + 1) 0 := by
      rw [List.getD_eq_getElem s _ hk1len, List.getD_eq_getElem s 0 hk1len]
    have hAB : s.getD k 0 ≤ s.getD (k + 1) 0 := sorted_getD_mono hs (Nat.le_succ k) hk1len
    have hBC : s.getD (k + 1) 0 ≤ s.getD k' 0 := sorted_getD_mono hs hlt hk'len
    have hCD : s.getD k' 0 ≤ s.getD (k' + 1) (s.getD k' 0) := by
      rcases Nat.lt_or_ge (k' + 1) s.length with hin | hout
      · rw [List.getD_eq_getElem s _ hin,
          List.getD_eq_getElem s 0 (Nat.lt_of_succ_lt hin),
          ← List.getD_eq_getElem s 0 (Nat.lt_of_succ_lt hin),
          ← List.getD_eq_getElem s 0 hin]
        exact sorted_getD_mono hs (Nat.le_succ k') hin
      · rw [List.getD_eq_default s _ hout]
    have hf1 : h - (k : ℚ) ≤ 1 := by linarith
    have hf0 : 0 ≤ h - (k : ℚ) := by linarith
    have hf0' : 0 ≤ h' - (k' : ℚ) := by linarith
    rw [hB]
    nlinarith [hAB, hBC, hCD, hf1, hf0, hf0']

/-- 5th percentile ≤ 95th percentile. -/
theorem quantileLin_p5_le_p95 (vals : List ℚ) :
    quantileLin vals (1/20) ≤ quantileLin vals (19/20) := by
  unfold quantileLin
  have hs : List.Sorted (· ≤ ·) (List.insertionSort (· ≤ ·) vals) :=
    List.sorted_insertionSort _ vals
  cases hlen : (List.insertionSort (· ≤ ·) vals).length with
  | zero => simp
  | succ n =>
    exact interpAt_mono hs hlen (by positivity)
      (by nlinarith [Nat.cast_nonneg (α := ℚ) n])
      (by nlinarith [Nat.cast_nonneg (α := ℚ) n])

/-! ## Outlier detection (`is_outlier_zscore`, `is_outlier_iqr`) -/

/-- `mask.sum()` for a boolean mask. -/
def countTrue (l : List Bool) : ℕ := (l.filter id).length

/-- `is_outlier_zscore`: guard `len(dropna) < 2` returns all-False; otherwise
`|zscore(x)| > t` with `scipy.stats.zscore`'s default population (ddof = 0)
standard deviation, NaN-omitting. The comparison is embedded in the squared
form `(x-μ)² > t²·σ²` (equivalent for the non-negative `|z|` and `t`); a
zero-variance column yields NaN z-scores and `NaN > t` is False, hence the
explicit variance-zero branch. Missing cells keep NaN z-scores, never flagged. -/
def isOutlierZscore (cells : List (Option ℚ)) (t : ℚ) : List Bool :=
  if (validVals cells).length < 2 then cells.map (fun _ => false)
  else
    let μ := meanQ (validVals cells)
    let v := popVarQ (validVals cells)
    cells.map (fun c =>
      match c with
      | none => false
      | some x => if v = 0 then false else if t ^ 2 * v < (x - μ) ^ 2 then true else false)

/-- The spec's "sample standard deviation" (ddof = 1) reading of the z-score
test, used only to compare against the code's population-variance behaviour. -/
def isOutlierZscoreSample (cells : List (Option ℚ)) (t : ℚ) : List Bool :=
  if (validVals cells).length < 2 then cells.map (fun _ => false)
  else
    let μ := meanQ (validVals cells)
    let v := sampleVarQ (validVals cells)
    cells.map (fun c =>
      match c with
      | none => false
      | some x => if v = 0 then false else if t ^ 2 * v < (x - μ) ^ 2 then true else false)

/-- `is_outlier_iqr`: guard `len(dropna) < 4` returns all-False; otherwise
flag values strictly outside `[Q1 - m·IQR, Q3 + m·IQR]` (NaN comparisons are
False, so missing cells are never flagged). -/
def isOutlierIqr (cells : List (Option ℚ)) (m : ℚ) : List Bool :=
  if (validVals cells).length < 4 then cells.map (fun _ => false)
  else
    let q1 := quantileLin (validVals cells) (1/4)
    let q3 := quantileLin (validVals cells) (3/4)
    let lf := q1 - m * (q3 - q1)
    let uf := q3 + m * (q3 - q1)
    cells.map (fun c =>
      match c with
      | none => false
      | some x => if x < lf ∨ uf < x then true else false)

/-- `z_outliers | iqr_outliers`. -/
def orFlags (a b : List Bool) : List Bool := List.zipWith or a b

/-- The OR-combined outlier mask used by `process_outliers`. -/
def combinedFlags (cells : List (Option ℚ)) (t m : ℚ) : List Bool :=
  orFlags (isOutlierZscore cells t) (isOutlierIqr cells m)

/-- Claim-side combined mask under the "sample standard deviation" reading. -/
def combinedFlagsSample (cells : List (Option ℚ)) (t m : ℚ) : List Bool :=
  orFlags (isOutlierZscoreSample cells t) (isOutlierIqr cells m)

/-! ## The dataframe model -/

/-- A pandas DataFrame: a row-label index plus numeric and text columns.
Column order across the two kind partitions is immaterial to the claims. -/
structure DFrame where
  index : List ℕ
  numCols : List (String × List (Option ℚ))
  strCols : List (String × List (Option String))
deriving DecidableEq, Repr

def DFrame.nrows (df : DFrame) : ℕ := df.index.length

/-- Every column has exactly one cell per row label. -/
def WF (df : DFrame) : Prop :=
  (∀ p ∈ df.numCols, p.2.length = df.index.length) ∧
    (∀ p ∈ df.strCols, p.2.length = df.index.length)

/-- Association-list lookup (model of `df[col]` / dict access). -/
def alookup {α β : Type} [DecidableEq α] (k : α) : List (α × β) → Option β
  | [] => none
  | p :: t => if p.1 = k then some p.2 else alookup k t

/-- Keep the elements whose mask bit is set (boolean-mask row selection). -/
def zipKeep {α : Type} (l : List α) (mask : List Bool) : List α :=
  (l.zip mask).filterMap (fun p => if p.2 then some p.1 else none)

/-- `df[outliers].index.tolist()`: labels of the flagged rows. -/
def flaggedLabels (index : List ℕ) (flags : List Bool) : List ℕ := zipKeep index flags

/-- Apply a positional row mask to the whole table (labels are kept). -/
def rowFilter (df : DFrame) (mask : List Bool) : DFrame :=
  ⟨zipKeep df.index mask,
    df.numCols.map (fun p => (p.1, zipKeep p.2 mask)),
    df.strCols.map (fun p => (p.1, zipKeep p.2 mask))⟩

/-- `df[col] = newCells` for a numeric column. -/
def updateNumCol (df : DFrame) (name : String) (newCells : List (Option ℚ)) : DFrame :=
  { df with numCols := df.numCols.map (fun p => if p.1 = name then (p.1, newCells) else p) }

/-! ## Outlier remediation strategies -/

/-- The `cap` branch: both percentile bounds are computed up front from the
current column, then two sequential masked assignments clip flagged values
below the 5th percentile up to it and flagged values above the 95th down to
it (the second assignment reads the column state left by the first, as the
source does). -/
def capColumn (cells : List (Option ℚ)) (flags : List Bool) : List (Option ℚ) :=
  let lb := quantileLin (validVals cells) (1/20)
  let ub := quantileLin (validVals cells) (19/20)
  let step1 := (cells.zip flags).map (fun p =>
    match p with
    | (some x, true) => if x < lb then some lb else some x
    | (c, _) => c)
  (step1.zip flags).map (fun p =>
    match p with
    | (some x, true) => if ub < x then some ub else some x
    | (c, _) => c)

/-- The `transform` branch: `np.log1p` applied only when `(col > 0).all()`
(a missing cell makes the `all()` False, since `NaN > 0` is False). The
transcendental `log1p` is a parameter `f`. -/
def transformColumn (f : ℚ → ℚ) (cells : List (Option ℚ)) : List (Option ℚ) :=
  if cells.all (fun c => match c with | some x => if 0 < x then true else false | none => false)
  then cells.map (Option.map f) else cells

/-- Per-column entry of `process_outliers`' summary dict. -/
structure ColSummary where
  total : ℕ
  zCount : ℕ
  iqrCount : ℕ
  indices : List ℕ
deriving DecidableEq, Repr

def mkColSummary (index : List ℕ) (cells : List (Option ℚ)) (t m : ℚ) : ColSummary :=
  ⟨countTrue (combinedFlags cells t m), countTrue (isOutlierZscore cells t),
    countTrue (isOutlierIqr cells m), flaggedLabels index (combinedFlags cells t m)⟩

/-- `all_outlier_indices.update(labels)`: set-union keeping first-insertion
order (only membership is ever consumed downstream). -/
def dedupAppend (removed labels : List ℕ) : List ℕ :=
  removed ++ labels.filter (fun l => if l ∈ removed then false else true)

structure POutState where
  df : DFrame
  summary : List (String × ColSummary)
  removed : List ℕ
deriving DecidableEq, Repr

/-- One iteration of the column loop of `process_outliers` in
`backend/main.py`: detection and summary always happen (for columns present
with ≥ 4 valid values); when outliers exist, `remove` only collects labels,
while `cap`/`transform` rewrite the column in place. Any other strategy
string falls through every branch. -/
def stepColumnB (f : ℚ → ℚ) (strat : String) (t m : ℚ) (st : POutState)
    (colName : String) : POutState :=
  match alookup colName st.df.numCols with
  | none => st
  | some cells =>
    if validCount cells < 4 then st
    else
      let fl := combinedFlags cells t m
      let st1 : POutState :=
        { st with summary := st.summary ++ [(colName, mkColSummary st.df.index cells t m)] }
      if countTrue fl = 0 then st1
      else if strat = "remove" then
        { st1 with removed := dedupAppend st1.removed (flaggedLabels st1.df.index fl) }
      else if strat = "cap" then
        { st1 with df := updateNumCol st1.df colName (capColumn cells fl) }
      else if strat = "transform" then
        { st1 with df := updateNumCol st1.df colName (transformColumn f cells) }
      else st1

/-- The `removal_summary` record appended for the `remove` strategy. -/
structure RemovalSummary where
  rowsBefore : ℕ
  rowsAfter : ℕ
  rowsRemoved : ℕ
  uniqueOutlierRows : ℕ
deriving DecidableEq, Repr

structure POutResult where
  df : DFrame
  summary : List (String × ColSummary)
  removal : Option RemovalSummary
deriving DecidableEq, Repr

/-- `process_outliers` from `backend/main.py`: loop over the columns, then —
for `remove` with a nonempty collected label set — drop all collected rows
from the whole table at once and reset the index to `0..len-1`. -/
def processOutliersBackend (f : ℚ → ℚ) (df : DFrame) (cols : List String)
    (strat : String) (t m : ℚ) : POutResult :=
  let st := cols.foldl (stepColumnB f strat t m) ⟨df, [], []⟩
  if strat = "remove" ∧ st.removed ≠ [] then
    let rowsBefore := st.df.index.length
    let mask := st.df.index.map (fun lbl => if lbl ∈ st.removed then false else true)
    let df2 := rowFilter st.df mask
    let df3 : DFrame := { df2 with index := List.range df2.index.length }
    ⟨df3, st.summary,
      some ⟨rowsBefore, df3.index.length, rowsBefore - df3.index.length, st.removed.length⟩⟩
  else ⟨st.df, st.summary, none⟩

/-- One iteration of the column loop of `process_outliers` in `cleaner.py`:
identical to the backend's except that `remove` filters the rows of the whole
table immediately (`df = df[~outliers]`), keeping the old row labels, and no
index reset ever happens. -/
def stepColumnC (f : ℚ → ℚ) (strat : String) (t m : ℚ)
    (st : DFrame × List (String × ColSummary)) (colName : String) :
    DFrame × List (String × ColSummary) :=
  match alookup colName st.1.numCols with
  | none => st
  | some cells =>
    if validCount cells < 4 then st
    else
      let fl := combinedFlags cells t m
      let st1 := (st.1, st.2 ++ [(colName, mkColSummary st.1.index cells t m)])
      if countTrue fl = 0 then st1
      else if strat = "remove" then
        (rowFilter st1.1 (fl.map (fun b => !b)), st1.2)
      else if strat = "cap" then
        (updateNumCol st1.1 colName (capColumn cells fl), st1.2)
      else if strat = "transform" then
        (updateNumCol st1.1 colName (transformColumn f cells), st1.2)
      else st1

/-- `process_outliers` from `cleaner.py`. -/
def processOutliersCleaner (f : ℚ → ℚ) (df : DFrame) (cols : List String)
    (strat : String) (t m : ℚ) : DFrame × List (String × ColSummary) :=
  cols.foldl (stepColumnC f strat t m) (df, [])

/-! ## Standardizer (`StandardScaler`) -/

/-- `StandardScaler` on one column: centre by the mean and divide by the
population (ddof = 0) standard deviation; sklearn's
`_handle_zeros_in_scale` replaces a zero scale by 1, so a zero-variance
column divides by 1 instead of 0. `sqrtQ` abstracts `np.sqrt` (only ever
applied to a nonzero variance). -/
def standardizeCells (sqrtQ : ℚ → ℚ) (cells : List (Option ℚ)) : List (Option ℚ) :=
  let μ := meanQ (validVals cells)
  let v := popVarQ (validVals cells)
  let scale := if v = 0 then 1 else sqrtQ v
  cells.map (Option.map (fun x => (x - μ) / scale))

/-- `df[numeric_columns] = scaler.fit_transform(df[numeric_columns])`. -/
def standardizeTable (sqrtQ : ℚ → ℚ) (df : DFrame) : DFrame :=
  { df with numCols := df.numCols.map (fun p => (p.1, standardizeCells sqrtQ p.2)) }

/-! ## Type coercion and missing-value imputation -/

/-- The fixed lexical allowlist of forced-numeric column names. -/
def forcedNumericNames : List String :=
  ["age", "income", "salary", "price", "amount", "score"]

/-- Value of an unsigned digit string. -/
def digitsVal (l : List Char) : ℕ := l.foldl (fun acc c => acc * 10 + (c.toNat - 48)) 0

/-- Model of `pd.to_numeric(errors='coerce')` on one string cell: plain
(optionally signed) decimal literals parse exactly; anything else coerces to
missing. (Exponent notation and specials are outside every claim.) -/
def parseNumeric (s : String) : Option ℚ :=
  let l := stripL s.data
  let sgn : ℚ := match l with | '-' :: _ => -1 | _ => 1
  let l2 : List Char := match l with | '-' :: r => r | '+' :: r => r | _ => l
  match l2.splitOn '.' with
  | [ip] =>
    if ip ≠ [] ∧ ip.all Char.isDigit then some (sgn * (digitsVal ip : ℚ)) else none
  | [ip, fp] =>
    if (ip ≠ [] ∨ fp ≠ []) ∧ ip.all Char.isDigit ∧ fp.all Char.isDigit then
      some (sgn * ((digitsVal ip : ℚ) + (digitsVal fp : ℚ) / (10 : ℚ) ^ fp.length))
    else none
  | _ => none

/-- Drop columns that are entirely missing (`df.isnull().all()`). -/
def dropEmptyCols (df : DFrame) : DFrame :=
  ⟨df.index,
    df.numCols.filter (fun p => !(p.2.all (fun c => c.isNone))),
    df.strCols.filter (fun p => !(p.2.all (fun c => c.isNone)))⟩

/-- Force-parse the allowlisted columns as numeric
(`pd.to_numeric(df[col], errors='coerce')`); failures become missing. -/
def coerceNamed (df : DFrame) : DFrame :=
  ⟨df.index,
    df.numCols ++
      (df.strCols.filter (fun p => decide (lowerStr p.1 ∈ forcedNumericNames))).map
        (fun p => (p.1, p.2.map (fun c => c.bind parseNumeric))),
    df.strCols.filter (fun p => !(decide (lowerStr p.1 ∈ forcedNumericNames)))⟩

/-- Numeric imputation: `df[col].fillna(df[col].median())`. The median of an
all-missing column is NaN and `fillna(NaN)` changes nothing, hence the guard
branch keeping the column as is. -/
def imputeNumCells (cells : List (Option ℚ)) : List (Option ℚ) :=
  if validVals cells = [] then cells
  else cells.map (fun c => some (c.getD (medianQ (validVals cells))))

/-- The non-missing values of a text column. -/
def validStrs (cells : List (Option String)) : List String := cells.filterMap id

/-- `df[col].mode()[0]`: pandas sorts the modes, so this is the least string
among those of maximal multiplicity; `none` iff there are no values. -/
def mostFrequentMin (vals : List String) : Option String :=
  vals.foldl (fun acc v =>
    match acc with
    | none => some v
    | some b =>
      if vals.count b < vals.count v ∨
          (vals.count v = vals.count b ∧ charListLt v.data b.data = true) then some v
      else some b) none

/-- Text imputation: fill missing cells with the mode, or the sentinel
`"Unknown"` when the column has no values at all. -/
def imputeStrCells (cells : List (Option String)) : List (Option String) :=
  let fill := (mostFrequentMin (validStrs cells)).getD "Unknown"
  cells.map (fun c => some (c.getD fill))

/-- The missing-value handling loop of `clean_csv_data` (the loop only runs
when some cell is missing, but filling is the identity otherwise). -/
def imputeTable (df : DFrame) : DFrame :=
  ⟨df.index,
    df.numCols.map (fun p => (p.1, imputeNumCells p.2)),
    df.strCols.map (fun p => (p.1, imputeStrCells p.2))⟩

/-- Does any cell of the table hold the missing marker? -/
def hasMissing (df : DFrame) : Bool :=
  df.numCols.any (fun p => p.2.any (fun c => c.isNone)) ||
    df.strCols.any (fun p => p.2.any (fun c => c.isNone))

/-! ## Categorical encoder -/

/-- Positional index of the first occurrence of `a` (total: returns the
length when absent; used only on members). -/
def idxOf {α : Type} [DecidableEq α] (a : α) : List α → ℕ
  | [] => 0
  | b :: t => if b = a then 0 else idxOf a t + 1

/-- The backend's boolean synonym table (applied whole-value, as
`Series.replace` with a dict does). -/
def boolMapping : List (String × String) :=
  [("TRUE", "True"), ("FALSE", "False"),
   ("T", "True"), ("F", "False"),
   ("YES", "True"), ("NO", "False"),
   ("Y", "True"), ("N", "False"),
   ("1", "True"), ("0", "False")]

def applyBoolMap (s : String) : String := (alookup s boolMapping).getD s

/-- Backend per-value normalization: `str.strip()`, `str.upper()`, then the
boolean synonym substitution — in that source order. -/
def normalizeCat (s : String) : String := applyBoolMap (upperStr (stripStr s))

/-- `pd.Categorical(series).categories`: the distinct values in sorted
order. -/
def categoriesB (cells : List String) : List String :=
  List.insertionSort strLeP ((cells.map normalizeCat).dedup)

/-- `pd.Categorical(series).codes`: each value's position among the sorted
categories. -/
def encodeColumnB (cells : List String) : List ℕ :=
  (cells.map normalizeCat).map (fun v => idxOf v (categoriesB cells))

/-- `{code: category for code, category in enumerate(categories)}`. -/
def keymapB (cells : List String) : List (ℕ × String) := (categoriesB cells).enum

/-- Decoding one code through the keymap. -/
def decodeB (cells : List String) (c : ℕ) : String := (alookup c (keymapB cells)).getD ""

/-- Re-encoding a string value with the same encoder (normalize, then its
position among the categories). -/
def encodeValB (cells : List String) (s : String) : ℕ :=
  idxOf (normalizeCat s) (categoriesB cells)

/-- `cleaner.py`'s encoder only strips whitespace before assigning codes —
no upper-casing, no boolean synonym substitution, and no keymap. -/
def categoriesC (cells : List String) : List String :=
  List.insertionSort strLeP ((cells.map stripStr).dedup)

def encodeColumnC (cells : List String) : List ℕ :=
  (cells.map stripStr).map (fun v => idxOf v (categoriesC cells))

/-! ## Datetime parser -/

structure PDate where
  year : ℕ
  month : ℕ
  day : ℕ
deriving DecidableEq, Repr

/-- The six explicit formats tried by `parse_datetime_column`, in source
order. -/
inductive DateFmt
  | ymdDash | ymdSlash | mdySlash | dmySlash | dmyDash | mdyDash
deriving DecidableEq, Repr

def dateFormats : List DateFmt :=
  [.ymdDash, .ymdSlash, .mdySlash, .dmySlash, .dmyDash, .mdyDash]

def fmtSep : DateFmt → Char
  | .ymdDash | .dmyDash | .mdyDash => '-'
  | .ymdSlash | .mdySlash | .dmySlash => '/'

def isLeap (y : ℕ) : Bool :=
  decide (y % 4 = 0) && (decide (y % 100 ≠ 0) || decide (y % 400 = 0))

def daysInMonth (y m : ℕ) : ℕ :=
  if m = 2 then (if isLeap y then 29 else 28)
  else if m = 4 ∨ m = 6 ∨ m = 9 ∨ m = 11 then 30
  else 31

/-- A digit-field of between `lo` and `hi` characters (strptime's `%Y` is 4
digits, `%m`/`%d` are 1–2 digits). -/
def digitsField? (l : List Char) (lo hi : ℕ) : Option ℕ :=
  if lo ≤ l.length ∧ l.length ≤ hi ∧ l.all Char.isDigit then some (digitsVal l) else none

/-- `datetime` validation: year 1–9999, month 1–12, day within the month. -/
def mkValidDate (y m d : ℕ) : Option PDate :=
  if 1 ≤ y ∧ y ≤ 9999 ∧ 1 ≤ m ∧ m ≤ 12 ∧ 1 ≤ d ∧ d ≤ daysInMonth y m then
    some ⟨y, m, d⟩
  else none

def fieldOrderParse (f : DateFmt) (a b c : List Char) : Option PDate :=
  match f with
  | .ymdDash | .ymdSlash => do
    let y ← digitsField? a 4 4
    let m ← digitsField? b 1 2
    let d ← digitsField? c 1 2
    mkValidDate y m d
  | .mdySlash | .mdyDash => do
    let m ← digitsField? a 1 2
    let d ← digitsField? b 1 2
    let y ← digitsField? c 4 4
    mkValidDate y m d
  | .dmySlash | .dmyDash => do
    let d ← digitsField? a 1 2
    let m ← digitsField? b 1 2
    let y ← digitsField? c 4 4
    mkValidDate y m d

/-- `pd.to_datetime(s, format=fmt, errors='raise')` succeeding iff the whole
string matches the format: three digit-fields joined by the format's literal
separator, with calendar validation. -/
def parseWithFmt (f : DateFmt) (s : String) : Option PDate :=
  match s.data.splitOn (fmtSep f) with
  | [a, b, c] => fieldOrderParse f a b c
  | _ => none

/-- `try_parse_date`: the six explicit formats in order, then auto-detection
with `dayfirst=True`, then `dayfirst=False`, then NaT. The two
`pd.to_datetime` auto-detection fallbacks are abstracted as `auto1`/`auto2`. -/
def tryParseDate (auto1 auto2 : String → Option PDate) (s : String) : Option PDate :=
  match parseWithFmt .ymdDash s with
  | some d => some d
  | none =>
    match parseWithFmt .ymdSlash s with
    | some d => some d
    | none =>
      match parseWithFmt .mdySlash s with
      | some d => some d
      | none =>
        match parseWithFmt .dmySlash s with
        | some d => some d
        | none =>
          match parseWithFmt .dmyDash s with
          | some d => some d
          | none =>
            match parseWithFmt .mdyDash s with
            | some d => some d
            | none =>
              match auto1 s with
              | some d => some d
              | none =>
                match auto2 s with
                | some d => some d
                | none => none

/-- `series.apply(try_parse_date)` (a missing cell short-circuits to NaT). -/
def parseDatetimeColumn (auto1 auto2 : String → Option PDate)
    (cells : List (Option String)) : List (Option PDate) :=
  cells.map (fun c =>
    match c with
    | none => none
    | some s => tryParseDate auto1 auto2 s)

/-- Is `n` a contiguous substring of `h`? -/
def hasSub : List Char → List Char → Bool
  | [], n => n.isEmpty
  | h@(_ :: t), n => n.isPrefixOf h || hasSub t n

def dateKeywords : List String := ["date", "time", "created", "updated"]

/-- Date-column selection: the lower-cased name contains one of the temporal
keywords as a substring. -/
def isDateColumn (name : String) : Bool :=
  dateKeywords.any (fun w => hasSub (lowerStr name).data w.data)

/-! ## Derived specification views of the column loop -/

/-- What one loop iteration of `process_outliers` does to the processed
column's cells, as a function of the original cells: nothing for skipped or
outlier-free columns, capping under `cap`, conditional log-transform under
`transform`, and nothing under `remove` (the backend loop only collects
labels) or an unrecognized strategy. -/
def oneColUpdate (f : ℚ → ℚ) (strat : String) (t m : ℚ)
    (cells : List (Option ℚ)) : List (Option ℚ) :=
  if validCount cells < 4 then cells
  else if countTrue (combinedFlags cells t m) = 0 then cells
  else if strat = "remove" then cells
  else if strat = "cap" then capColumn cells (combinedFlags cells t m)
  else if strat = "transform" then transformColumn f cells
  else cells

/-- The summary entry the loop records for one column (none when the column
is absent or has fewer than 4 valid values). -/
def colSummaryOpt (df : DFrame) (t m : ℚ) (c : String) : Option (String × ColSummary) :=
  match alookup c df.numCols with
  | none => none
  | some cells =>
    if validCount cells < 4 then none else some (c, mkColSummary df.index cells t m)

/-- The outlier row labels one column contributes (empty when skipped). -/
def colLabels (df : DFrame) (t m : ℚ) (c : String) : List ℕ :=
  match alookup c df.numCols with
  | none => []
  | some cells =>
    if validCount cells < 4 then []
    else flaggedLabels df.index (combinedFlags cells t m)

/-- The union (as a deduplicated list) of outlier row labels across all
processed columns, computed against the table given to `process_outliers`. -/
def unionOutlierLabels (df : DFrame) (cols : List String) (t m : ℚ) : List ℕ :=
  ((cols.map (colLabels df t m)).flatten).dedup

/-! ## Concrete tables used by witnesses and counterexamples -/

/-- Demonstration column for the C1 witness. -/
def cDemo : List String := ["Y", " NYC ", "no", "NYC"]

/-- One numeric column `a = [100, 1, 1, 1, 1]` on row labels `0..4`; the
value 100 is an IQR outlier (the quartiles are both 1). -/
def dfC2 : DFrame :=
  ⟨[0, 1, 2, 3, 4], [("a", [some 100, some 1, some 1, some 1, some 1])], []⟩

/-- One numeric column `a = [0, 0, 0, 1]` on row labels `0..3`. -/
def dfC4 : DFrame := ⟨[0, 1, 2, 3], [("a", [some 0, some 0, some 0, some 1])], []⟩

/-- One numeric column `a = [1, 2, 3, 4]`: all positive, and outlier-free
under the default thresholds. -/
def dfC9 : DFrame := ⟨[0, 1, 2, 3], [("a", [some 1, some 2, some 3, some 4])], []⟩

/-- A constant numeric column together with a text column. -/
def dfC10 : DFrame :=
  ⟨[0, 1, 2, 3], [("a", [some 5, some 5, some 5, some 5])],
    [("city", [some "x", some "y", some "x", some "y"])]⟩

/-- A forced-numeric column (`age`) none of whose values parses as a number. -/
def dfC3 : DFrame := ⟨[0, 1], [], [("age", [some "x", some "y"])]⟩

/-- A small table with one missing numeric and one missing text cell. -/
def dfC3w : DFrame :=
  ⟨[0, 1, 2], [("a", [some 1, none, some 3])],
    [("city", [some "NYC", none, some "LA"])]⟩

/-! ## Supporting lemmas: association lists and positional indices -/

theorem alookup_mem {α β : Type} [DecidableEq α] {k : α} {v : β} :
    ∀ {l : List (α × β)}, alookup k l = some v → (k, v) ∈ l := by
  intro l
  induction l with
  | nil => intro h; simp [alookup] at h
  | cons p t ih =>
    intro h
    rw [alookup] at h
    by_cases hp : p.1 = k
    · rw [if_pos hp] at h
      have hv : p.2 = v := by injection h
      have hpk : p = (k, v) := by
        cases p
        simp_all
      rw [← hpk]
      exact List.mem_cons_self _ _
    · rw [if_neg hp] at h
      exact List.mem_cons_of_mem _ (ih h)

theorem alookup_of_key_mem {α β : Type} [DecidableEq α] {k : α} :
    ∀ {l : List (α × β)}, k ∈ l.map Prod.fst → ∃ v, alookup k l = some v := by
  intro l
  induction l with
  | nil => intro h; simp at h
  | cons p t ih =>
    intro h
    rw [alookup]
    by_cases hp : p.1 = k
    · exact ⟨p.2, if_pos hp⟩
    · rcases List.mem_map.mp h with ⟨q, hq, hqk⟩
      rcases List.mem_cons.mp hq with rfl | hqt
      · exact absurd hqk hp
      · rw [if_neg hp]
        exact ih (List.mem_map.mpr ⟨q, hqt, hqk⟩)

theorem idxOf_lt_length {α : Type} [DecidableEq α] {a : α} :
    ∀ {l : List α}, a ∈ l → idxOf a l < l.length := by
  intro l
  induction l with
  | nil => intro h; simp at h
  | cons b t ih =>
    intro h
    rw [idxOf]
    by_cases hb : b = a
    · simp [hb]
    · rcases List.mem_cons.mp h with rfl | ht
      · exact absurd rfl hb
      · simpa [hb, Nat.succ_lt_succ_iff] using ih ht

theorem getElem_idxOf {α : Type} [DecidableEq α] {a : α} :
    ∀ {l : List α} (h : a ∈ l), l.get ⟨idxOf a l, idxOf_lt_length h⟩ = a := by
  intro l
  induction l with
  | nil => intro h; simp at h
  | cons b t ih =>
    intro h
    by_cases hb : b = a
    · simp [idxOf, hb]
    · rcases List.mem_cons.mp h with rfl | ht
      · exact absurd rfl hb
      · simp only [idxOf, hb, if_false]
        simpa using ih ht

theorem idxOf_getElem {α : Type} [DecidableEq α] :
    ∀ {l : List α}, l.Nodup → ∀ i (h : i < l.length), idxOf l[i] l = i := by
  intro l
  induction l with
  | nil => intro _ i h; simp at h
  | cons b t ih =>
    intro hnd i h
    rcases List.nodup_cons.mp hnd with ⟨hbt, hndt⟩
    match i with
    | 0 => simp [idxOf]
    | Nat.succ j =>
      have hj : j < t.length := Nat.succ_lt_succ_iff.mp (by simpa using h)
      have hgt : (b :: t)[j + 1] = t[j] := by simp
      rw [hgt, idxOf]
      have hne : b ≠ t[j] := fun hb => hbt (hb ▸ List.getElem_mem hj)
      simp [hne, ih hndt j hj]

theorem alookup_enumFrom {α : Type} :
    ∀ (l : List α) (k i : ℕ) (h : i < l.length),
      alookup (k + i) (List.enumFrom k l) = some l[i] := by
  intro l
  induction l with
  | nil => intro k i h; simp at h
  | cons a t ih =>
    intro k i h
    match i with
    | 0 => simp [List.enumFrom, alookup]
    | Nat.succ j =>
      have hj : j < t.length := Nat.succ_lt_succ_iff.mp (by simpa using h)
      have hne : ¬ (k = k + (j + 1)) := by omega
      have harg : k + (j + 1) = (k + 1) + j := by omega
      simp only [List.enumFrom, alookup, hne, if_false]
      rw [harg, ih (k + 1) j hj]
      simp

theorem alookup_enum {α : Type} (l : List α) (i : ℕ) (h : i < l.length) :
    alookup i l.enum = some l[i] := by
  have := alookup_enumFrom l 0 i h
  simpa [List.enum] using this

/-! ## Normalization is idempotent, and the encoder round-trips -/

theorem normalizeCat_idem (s : String) : normalizeCat (normalizeCat s) = normalizeCat s := by
  unfold normalizeCat applyBoolMap
  cases hl : alookup (upperStr (stripStr s)) boolMapping with
  | some v =>
    have hmem : (upperStr (stripStr s), v) ∈ boolMapping := alookup_mem hl
    have hfix : ∀ p ∈ boolMapping,
        applyBoolMap (upperStr (stripStr p.2)) = p.2 := by decide
    have := hfix _ hmem
    unfold applyBoolMap at this
    simpa using this
  | none =>
    have hstrip : stripStr (upperStr (stripStr s)) = upperStr (stripStr s) := by
      rw [stripStr_upperStr, stripStr_idem]
    have hupper : upperStr (stripStr (upperStr (stripStr s))) = upperStr (stripStr s) := by
      rw [hstrip, upperStr_idem]
    simp [hl, hupper]

theorem nodup_categoriesB (cells : List String) : (categoriesB cells).Nodup :=
  (List.perm_insertionSort _ _).nodup_iff.mpr (List.nodup_dedup _)

theorem mem_categoriesB {cells : List String} {v : String} :
    v ∈ categoriesB cells ↔ v ∈ cells.map normalizeCat := by
  unfold categoriesB
  rw [(List.perm_insertionSort _ _).mem_iff, List.mem_dedup]

theorem normalizeCat_fixed_of_mem {cells : List String} {v : String}
    (h : v ∈ categoriesB cells) : normalizeCat v = v := by
  rcases List.mem_map.mp (mem_categoriesB.mp h) with ⟨x, _, rfl⟩
  exact normalizeCat_idem x

/-- C1. Backend categorical encoder: for every encoded column, the keymap's
codes are exactly `0..k-1` (contiguous, starting at 0); every code appearing
in the encoded column is below `k` and has exactly one keymap entry; and
decoding any appearing code through the keymap and re-encoding the resulting
string yields the same code. -/
theorem C1_keymap_roundtrip (cells : List String) :
    ((keymapB cells).map Prod.fst = List.range (categoriesB cells).length) ∧
      (∀ c ∈ encodeColumnB cells,
        c < (categoriesB cells).length ∧
          ((keymapB cells).map Prod.fst).count c = 1) ∧
      (∀ c ∈ encodeColumnB cells, encodeValB cells (decodeB cells c) = c) := by
  have hfst : (keymapB cells).map Prod.fst = List.range (categoriesB cells).length := by
    unfold keymapB
    exact List.enum_map_fst _
  have hlt : ∀ c ∈ encodeColumnB cells, c < (categoriesB cells).length := by
    intro c hc
    rcases List.mem_map.mp hc with ⟨v, hv, rfl⟩
    have hvmem : v ∈ categoriesB cells := mem_categoriesB.mpr hv
    exact idxOf_lt_length hvmem
  refine ⟨hfst, fun c hc => ⟨hlt c hc, ?_⟩, fun c hc => ?_⟩
  · rw [hfst]
    exact List.count_eq_one_of_mem (List.nodup_range _)
      (List.mem_range.mpr (hlt c hc))
  · have hclen : c < (categoriesB cells).length := hlt c hc
    have hdec : decodeB cells c = (categoriesB cells)[c] := by
      unfold decodeB keymapB
      rw [alookup_enum _ _ hclen]
      rfl
    have hfix : normalizeCat ((categoriesB cells)[c]) = (categoriesB cells)[c] :=
      normalizeCat_fixed_of_mem (List.getElem_mem hclen)
    unfold encodeValB
    rw [hdec, hfix]
    exact idxOf_getElem (nodup_categoriesB cells) c hclen

/-- C1 witness at a concrete column: code 2 appears in the encoded column,
is within range, has one keymap entry, and round-trips. -/
theorem C1_keymap_roundtrip_witness :
    2 < (categoriesB cDemo).length ∧
      ((keymapB cDemo).map Prod.fst).count 2 = 1 ∧
      encodeValB cDemo (decodeB cDemo 2) = 2 :=
  ⟨((C1_keymap_roundtrip cDemo).2.1 2 (by decide)).1,
    ((C1_keymap_roundtrip cDemo).2.1 2 (by decide)).2,
    (C1_keymap_roundtrip cDemo).2.2 2 (by decide)⟩

/-- C7 counterexample: in `cleaner.py`'s encoder (strip only — no
upper-casing and no boolean synonym substitution, `cleaner.py` lines
283–286), the column `{"Y","N","yes","NO"}` is encoded with 4 categories,
not at most 2. -/
theorem C7_counterexample :
    (categoriesC ["Y", "N", "yes", "NO"]).length = 4 ∧
      ¬ (categoriesC ["Y", "N", "yes", "NO"]).length ≤ 2 := by
  decide

/-- C7 (amended to the backend encoder, `backend/main.py` lines 330–343):
when every trimmed-and-uppercased value of the column is a boolean synonym
token, the encoded column has at most 2 categories and every category is an
output of the True/False synonym table. -/
theorem C7_boolean_collapse (cells : List String)
    (hbool : ∀ s ∈ cells, upperStr (stripStr s) ∈ boolMapping.map Prod.fst) :
    (categoriesB cells).length ≤ 2 ∧
      ∀ v ∈ categoriesB cells, v ∈ boolMapping.map Prod.snd := by
  have hval : ∀ v ∈ categoriesB cells, v ∈ boolMapping.map Prod.snd := by
    intro v hv
    rcases List.mem_map.mp (mem_categoriesB.mp hv) with ⟨x, hx, rfl⟩
    rcases alookup_of_key_mem (hbool x hx) with ⟨w, hw⟩
    have : normalizeCat x = w := by
      unfold normalizeCat applyBoolMap
      simp [hw]
    rw [this]
    exact List.mem_map.mpr ⟨_, alookup_mem hw, rfl⟩
  have hsub : categoriesB cells ⊆ ["False", "True"] := by
    intro v hv
    have := hval v hv
    have himg : ∀ w ∈ boolMapping.map Prod.snd, w ∈ ["False", "True"] := by decide
    exact himg v this
  have hsp := List.subperm_of_subset (nodup_categoriesB cells) hsub
  exact ⟨hsp.length_le, hval⟩

/-- C7 witness: the backend encoder collapses `{"Y","N","yes","NO"}` to at
most two categories, all through the synonym table. -/
theorem C7_boolean_collapse_witness :
    (categoriesB ["Y", "N", "yes", "NO"]).length ≤ 2 ∧
      ∀ v ∈ categoriesB ["Y", "N", "yes", "NO"], v ∈ boolMapping.map Prod.snd :=
  C7_boolean_collapse ["Y", "N", "yes", "NO"] (by decide)

/-! ## Row-mask and label bookkeeping lemmas -/

theorem zipKeep_cons {α : Type} (a : α) (t : List α) (b : Bool) (ms : List Bool) :
    zipKeep (a :: t) (b :: ms) = if b = true then a :: zipKeep t ms else zipKeep t ms := by
  cases b <;> simp [zipKeep]

theorem zipKeep_sublist {α : Type} : ∀ (l : List α) (mask : List Bool),
    List.Sublist (zipKeep l mask) l := by
  intro l
  induction l with
  | nil => intro mask; simp [zipKeep]
  | cons a t ih =>
    intro mask
    cases mask with
    | nil => simp [zipKeep]
    | cons b ms =>
      rw [zipKeep_cons]
      cases b with
      | true => simpa using (ih ms).cons₂ a
      | false => simpa using (ih ms).cons a

theorem mem_zipKeep {α : Type} {x : α} {l : List α} {mask : List Bool}
    (h : x ∈ zipKeep l mask) : x ∈ l :=
  (zipKeep_sublist l mask).subset h

theorem zipKeep_nodup {α : Type} {l : List α} (mask : List Bool) (h : l.Nodup) :
    (zipKeep l mask).Nodup :=
  h.sublist (zipKeep_sublist l mask)

theorem zipKeep_all_true {α : Type} : ∀ (l : List α) (mask : List Bool),
    (∀ b ∈ mask, b = true) → l.length ≤ mask.length → zipKeep l mask = l := by
  intro l
  induction l with
  | nil => intro mask _ _; simp [zipKeep]
  | cons a t ih =>
    intro mask hall hlen
    cases mask with
    | nil => simp at hlen
    | cons b ms =>
      have hb : b = true := hall b (List.mem_cons_self _ _)
      rw [zipKeep_cons, if_pos hb,
        ih ms (fun x hx => hall x (List.mem_cons_of_mem _ hx)) (Nat.succ_le_succ_iff.mp hlen)]

theorem zipKeep_all_false {α : Type} : ∀ (l : List α) (mask : List Bool),
    (∀ b ∈ mask, b = false) → zipKeep l mask = [] := by
  intro l
  induction l with
  | nil => intro mask _; simp [zipKeep]
  | cons a t ih =>
    intro mask hall
    cases mask with
    | nil => simp [zipKeep]
    | cons b ms =>
      have hb : b = false := hall b (List.mem_cons_self _ _)
      rw [zipKeep_cons, hb, if_neg (by simp),
        ih ms (fun x hx => hall x (List.mem_cons_of_mem _ hx))]

theorem zipKeep_map_self {α : Type} (p : α → Bool) : ∀ (l : List α),
    zipKeep l (l.map p) = l.filter p := by
  intro l
  induction l with
  | nil => simp [zipKeep]
  | cons a t ih =>
    rw [List.map_cons, zipKeep_cons, List.filter_cons]
    cases hp : p a <;> simp [ih]

theorem countTrue_zero_iff (flags : List Bool) :
    countTrue flags = 0 ↔ ∀ b ∈ flags, b = false := by
  unfold countTrue
  rw [List.length_eq_zero, List.filter_eq_nil_iff]
  simp

theorem flaggedLabels_eq_nil {index : List ℕ} {flags : List Bool}
    (h : countTrue flags = 0) : flaggedLabels index flags = [] :=
  zipKeep_all_false index flags ((countTrue_zero_iff flags).mp h)

theorem mem_dedupAppend (removed labels : List ℕ) (x : ℕ) :
    x ∈ dedupAppend removed labels ↔ x ∈ removed ∨ x ∈ labels := by
  unfold dedupAppend
  rw [List.mem_append, List.mem_filter]
  by_cases hx : x ∈ removed <;> simp [hx]

theorem nodup_dedupAppend {removed labels : List ℕ}
    (h1 : removed.Nodup) (h2 : labels.Nodup) : (dedupAppend removed labels).Nodup := by
  unfold dedupAppend
  rw [List.nodup_append]
  refine ⟨h1, h2.filter _, ?_⟩
  intro x hx hxf
  have := List.of_mem_filter hxf
  simp [hx] at this

theorem dedupAppend_nil (removed : List ℕ) : dedupAppend removed [] = removed := by
  simp [dedupAppend]

theorem colLabels_nodup {df : DFrame} {t m : ℚ} (c : String)
    (h : df.index.Nodup) : (colLabels df t m c).Nodup := by
  unfold colLabels
  cases alookup c df.numCols with
  | none => exact List.nodup_nil
  | some cells =>
    by_cases h4 : validCount cells < 4
    · simp [h4]
    · simp only [h4, if_false]
      exact zipKeep_nodup _ h

theorem colLabels_subset_index {df : DFrame} {t m : ℚ} {c : String} {x : ℕ}
    (h : x ∈ colLabels df t m c) : x ∈ df.index := by
  unfold colLabels at h
  cases hl : alookup c df.numCols with
  | none => rw [hl] at h; simp at h
  | some cells =>
    rw [hl] at h
    by_cases h4 : validCount cells < 4
    · simp [h4] at h
    · simp only [h4, if_false] at h
      exact mem_zipKeep h

/-! ## Association-list update -/

theorem alookup_update_list {β : Type} (c : String) (new : β) :
    ∀ (L : List (String × β)) (nm : String),
      alookup nm (L.map (fun p => if p.1 = c then (p.1, new) else p)) =
        if nm = c then (alookup c L).map (fun _ => new) else alookup nm L := by
  intro L
  induction L with
  | nil => intro nm; by_cases h : nm = c <;> simp [alookup, h]
  | cons p t ih =>
    intro nm
    by_cases hpc : p.1 = c
    · by_cases hpnm : p.1 = nm
      · have hnm : nm = c := by rw [← hpnm, hpc]
        simp [alookup, hpc, hpnm, hnm]
      · have hnm : ¬ nm = c := fun h => hpnm (by rw [hpc, h])
        have hcm : ¬ c = nm := fun h => hnm h.symm
        simp [alookup, hpc, hpnm, hnm, hcm, ih nm]
    · by_cases hpnm : p.1 = nm
      · have hnm : ¬ nm = c := fun h => hpc (by rw [hpnm, h])
        simp [alookup, hpc, hpnm, hnm]
      · simp [alookup, hpc, hpnm, ih nm]

theorem alookup_updateNumCol (df : DFrame) (c : String)
    (new : List (Option ℚ)) (nm : String) :
    alookup nm (updateNumCol df c new).numCols =
      if nm = c then (alookup c df.numCols).map (fun _ => new)
      else alookup nm df.numCols :=
  alookup_update_list c new df.numCols nm

/-! ## One step of the `process_outliers` column loop -/

theorem stepB_index (f : ℚ → ℚ) (strat : String) (t m : ℚ) (st : POutState) (c : String) :
    (stepColumnB f strat t m st c).df.index = st.df.index := by
  unfold stepColumnB
  cases hl : alookup c st.df.numCols with
  | none => rfl
  | some cells =>
    by_cases h4 : validCount cells < 4
    · simp [h4]
    · by_cases h0 : countTrue (combinedFlags cells t m) = 0
      · simp [h4, h0]
      · by_cases hr : strat = "remove"
        · simp [h4, h0, hr]
        · by_cases hc : strat = "cap"
          · simp [h4, h0, hr, hc, updateNumCol]
          · by_cases ht : strat = "transform"
            · simp [h4, h0, hr, hc, ht, updateNumCol]
            · simp [h4, h0, hr, hc, ht]

theorem stepB_strCols (f : ℚ → ℚ) (strat : String) (t m : ℚ) (st : POutState) (c : String) :
    (stepColumnB f strat t m st c).df.strCols = st.df.strCols := by
  unfold stepColumnB
  cases hl : alookup c st.df.numCols with
  | none => rfl
  | some cells =>
    by_cases h4 : validCount cells < 4
    · simp [h4]
    · by_cases h0 : countTrue (combinedFlags cells t m) = 0
      · simp [h4, h0]
      · by_cases hr : strat = "remove"
        · simp [h4, h0, hr]
        · by_cases hc : strat = "cap"
          · simp [h4, h0, hr, hc, updateNumCol]
          · by_cases ht : strat = "transform"
            · simp [h4, h0, hr, hc, ht, updateNumCol]
            · simp [h4, h0, hr, hc, ht]

theorem stepB_summary (f : ℚ → ℚ) (strat : String) (t m : ℚ) (st : POutState) (c : String) :
    (stepColumnB f strat t m st c).summary
      = st.summary ++ (colSummaryOpt st.df t m c).toList := by
  unfold stepColumnB colSummaryOpt
  cases hl : alookup c st.df.numCols with
  | none => simp
  | some cells =>
    by_cases h4 : validCount cells < 4
    · simp [h4]
    · by_cases h0 : countTrue (combinedFlags cells t m) = 0
      · simp [h4, h0]
      · by_cases hr : strat = "remove"
        · simp [h4, h0, hr]
        · by_cases hc : strat = "cap"
          · simp [h4, h0, hr, hc, updateNumCol]
          · by_cases ht : strat = "transform"
            · simp [h4, h0, hr, hc, ht, updateNumCol]
            · simp [h4, h0, hr, hc, ht]

theorem stepB_lookup (f : ℚ → ℚ) (strat : String) (t m : ℚ) (st : POutState)
    (c nm : String) :
    alookup nm (stepColumnB f strat t m st c).df.numCols =
      if nm = c then
        (alookup c st.df.numCols).map (fun cells => oneColUpdate f strat t m cells)
      else alookup nm st.df.numCols := by
  unfold stepColumnB oneColUpdate
  cases hl : alookup c st.df.numCols with
  | none =>
    by_cases hnm : nm = c
    · subst hnm; simp [hl]
    · simp [hnm]
  | some cells =>
    by_cases h4 : validCount cells < 4
    · by_cases hnm : nm = c
      · subst hnm; simp [hl, h4]
      · simp [hnm, h4]
    · by_cases h0 : countTrue (combinedFlags cells t m) = 0
      · by_cases hnm : nm = c
        · subst hnm; simp [hl, h4, h0]
        · simp [hnm, h4, h0]
      · by_cases hr : strat = "remove"
        · by_cases hnm : nm = c
          · subst hnm; simp [hl, h4, h0, hr]
          · simp [hnm, h4, h0, hr]
        · by_cases hc : strat = "cap"
          · by_cases hnm : nm = c
            · subst hnm; simp [hl, h4, h0, hr, hc, alookup_updateNumCol]
            · simp [hnm, h4, h0, hr, hc, alookup_updateNumCol]
          · by_cases ht : strat = "transform"
            · by_cases hnm : nm = c
              · subst hnm; simp [hl, h4, h0, hr, hc, ht, alookup_updateNumCol]
              · simp [hnm, h4, h0, hr, hc, ht, alookup_updateNumCol]
            · by_cases hnm : nm = c
              · subst hnm; simp [hl, h4, h0, hr, hc, ht]
              · simp [hnm, h4, h0, hr, hc, ht]

theorem stepB_removed_of_ne (f : ℚ → ℚ) {strat : String} (t m : ℚ) (st : POutState)
    (c : String) (hs : strat ≠ "remove") :
    (stepColumnB f strat t m st c).removed = st.removed := by
  unfold stepColumnB
  cases hl : alookup c st.df.numCols with
  | none => rfl
  | some cells =>
    by_cases h4 : validCount cells < 4
    · simp [h4]
    · by_cases h0 : countTrue (combinedFlags cells t m) = 0
      · simp [h4, h0]
      · by_cases hc : strat = "cap"
        · simp [h4, h0, hs, hc, updateNumCol]
        · by_cases ht : strat = "transform"
          · simp [h4, h0, hs, hc, ht, updateNumCol]
          · simp [h4, h0, hs, hc, ht]

theorem stepB_df_remove (f : ℚ → ℚ) (t m : ℚ) (st : POutState) (c : String) :
    (stepColumnB f "remove" t m st c).df = st.df := by
  unfold stepColumnB
  cases hl : alookup c st.df.numCols with
  | none => rfl
  | some cells =>
    by_cases h4 : validCount cells < 4
    · simp [h4]
    · by_cases h0 : countTrue (combinedFlags cells t m) = 0
      · simp [h4, h0]
      · simp [h4, h0]

theorem stepB_removed_remove (f : ℚ → ℚ) (t m : ℚ) (st : POutState) (c : String) :
    (stepColumnB f "remove" t m st c).removed
      = dedupAppend st.removed (colLabels st.df t m c) := by
  unfold stepColumnB colLabels
  cases hl : alookup c st.df.numCols with
  | none => simp [dedupAppend_nil]
  | some cells =>
    by_cases h4 : validCount cells < 4
    · simp [h4, dedupAppend_nil]
    · by_cases h0 : countTrue (combinedFlags cells t m) = 0
      · simp [h4, h0, flaggedLabels_eq_nil h0, dedupAppend_nil]
      · simp [h4, h0]

/-! ## The whole column loop (fold lemmas) -/

theorem foldB_spec (f : ℚ → ℚ) (strat : String) (t m : ℚ) :
    ∀ (cols : List String) (st : POutState), cols.Nodup →
      (cols.foldl (stepColumnB f strat t m) st).df.index = st.df.index ∧
        (cols.foldl (stepColumnB f strat t m) st).df.strCols = st.df.strCols ∧
        (cols.foldl (stepColumnB f strat t m) st).summary
          = st.summary ++ cols.filterMap (colSummaryOpt st.df t m) ∧
        (∀ nm, alookup nm (cols.foldl (stepColumnB f strat t m) st).df.numCols =
          if nm ∈ cols then
            (alookup nm st.df.numCols).map (fun cells => oneColUpdate f strat t m cells)
          else alookup nm st.df.numCols) := by
  intro cols
  induction cols with
  | nil => intro st _; exact ⟨rfl, rfl, by simp, fun nm => by simp⟩
  | cons c rest ih =>
    intro st hnd
    rcases List.nodup_cons.mp hnd with ⟨hcr, hndr⟩
    set st1 := stepColumnB f strat t m st c with hst1
    have hidx1 := stepB_index f strat t m st c
    have hstr1 := stepB_strCols f strat t m st c
    have hsum1 := stepB_summary f strat t m st c
    have hlook1 := stepB_lookup f strat t m st
    obtain ⟨ihidx, ihstr, ihsum, ihlook⟩ := ih st1 hndr
    have hfold : (c :: rest).foldl (stepColumnB f strat t m) st
        = rest.foldl (stepColumnB f strat t m) st1 := rfl
    rw [hfold]
    refine ⟨ihidx.trans hidx1, ihstr.trans hstr1, ?_, ?_⟩
    · rw [ihsum, hsum1]
      have hcongr : rest.filterMap (colSummaryOpt st1.df t m)
          = rest.filterMap (colSummaryOpt st.df t m) := by
        apply List.filterMap_congr
        intro nm hnm
        have hne : nm ≠ c := fun h => hcr (h ▸ hnm)
        unfold colSummaryOpt
        rw [hlook1 c nm, if_neg hne, hidx1]
      rw [hcongr, List.append_assoc]
      congr 1
      cases hopt : colSummaryOpt st.df t m c <;> simp [List.filterMap_cons, hopt]
    · intro nm
      rw [ihlook nm]
      by_cases hmem : nm ∈ rest
      · have hne : nm ≠ c := fun h => hcr (h ▸ hmem)
        rw [if_pos hmem, hlook1 c nm, if_neg hne, if_pos (List.mem_cons_of_mem _ hmem)]
      · rw [if_neg hmem, hlook1 c nm]
        by_cases hnc : nm = c
        · rw [if_pos hnc, if_pos (by rw [hnc]; exact List.mem_cons_self _ _), hnc]
        · rw [if_neg hnc, if_neg (by simp [hnc, hmem])]

theorem foldB_remove (f : ℚ → ℚ) (t m : ℚ) :
    ∀ (cols : List String) (st : POutState),
      (cols.foldl (stepColumnB f "remove" t m) st).df = st.df ∧
        (cols.foldl (stepColumnB f "remove" t m) st).summary
          = st.summary ++ cols.filterMap (colSummaryOpt st.df t m) ∧
        (st.df.index.Nodup → st.removed.Nodup →
          (cols.foldl (stepColumnB f "remove" t m) st).removed.Nodup) ∧
        (∀ x, x ∈ (cols.foldl (stepColumnB f "remove" t m) st).removed ↔
          x ∈ st.removed ∨ ∃ c ∈ cols, x ∈ colLabels st.df t m c) := by
  intro cols
  induction cols with
  | nil => intro st; exact ⟨rfl, by simp, fun _ h => h, fun x => by simp⟩
  | cons c rest ih =>
    intro st
    set st1 := stepColumnB f "remove" t m st c with hst1
    have hdf1 : st1.df = st.df := stepB_df_remove f t m st c
    have hsum1 := stepB_summary f "remove" t m st c
    have hrem1 : st1.removed = dedupAppend st.removed (colLabels st.df t m c) :=
      stepB_removed_remove f t m st c
    obtain ⟨ihdf, ihsum, ihnd, ihmem⟩ := ih st1
    have hfold : (c :: rest).foldl (stepColumnB f "remove" t m) st
        = rest.foldl (stepColumnB f "remove" t m) st1 := rfl
    rw [hfold]
    refine ⟨ihdf.trans hdf1, ?_, ?_, ?_⟩
    · rw [ihsum, hsum1, hdf1, List.append_assoc]
      congr 1
      cases hopt : colSummaryOpt st.df t m c <;> simp [List.filterMap_cons, hopt]
    · intro hidx hrm
      apply ihnd
      · rw [hdf1]; exact hidx
      · rw [hrem1]; exact nodup_dedupAppend hrm (colLabels_nodup c hidx)
    · intro x
      rw [ihmem x, hrem1, mem_dedupAppend, hdf1]
      constructor
      · rintro ((hx | hx) | ⟨c1, hc1, hx⟩)
        · exact Or.inl hx
        · exact Or.inr ⟨c, List.mem_cons_self _ _, hx⟩
        · exact Or.inr ⟨c1, List.mem_cons_of_mem _ hc1, hx⟩
      · rintro (hx | ⟨c1, hc1, hx⟩)
        · exact Or.inl (Or.inl hx)
        · rcases List.mem_cons.mp hc1 with rfl | hc1r
          · exact Or.inl (Or.inr hx)
          · exact Or.inr ⟨c1, hc1r, hx⟩

/-- Counting: removing a nodup set of labels from `range n` leaves
`n - |set|` rows. -/
theorem length_filter_not_mem (u : List ℕ) (n : ℕ)
    (hnd : u.Nodup) (hsub : ∀ x ∈ u, x ∈ List.range n) :
    ((List.range n).filter (fun x => if x ∈ u then false else true)).length
      = n - u.length := by
  have hperm : List.Perm ((List.range n).filter (fun x => if x ∈ u then true else false)) u := by
    apply (List.perm_ext_iff_of_nodup ((List.nodup_range n).filter _) hnd).mpr
    intro a
    rw [List.mem_filter]
    constructor
    · rintro ⟨_, hp⟩
      by_cases ha : a ∈ u
      · exact ha
      · simp [ha] at hp
    · intro ha
      exact ⟨hsub a ha, by simp [ha]⟩
  have hpart := List.length_eq_length_filter_add
    (l := List.range n) (fun x => if x ∈ u then true else false)
  have hneg : (List.range n).filter (fun x => !(if x ∈ u then true else false))
      = (List.range n).filter (fun x => if x ∈ u then false else true) := by
    apply List.filter_congr
    intro a _
    by_cases ha : a ∈ u <;> simp [ha]
  rw [hneg] at hpart
  rw [List.length_range] at hpart
  rw [hperm.length_eq] at hpart
  omega

/-- C2 (amended to the backend implementation, `backend/main.py` lines
117–154). Under the `remove` strategy the loop only collects the union of
outlier row labels across all numeric columns; the rows are then deleted from
the whole table in one pass and the index is reset: the resulting index is
exactly `0..(n-|union|-1)` (contiguous, no repeats or skips), the row count
is the original count minus the size of the union, and every column is the
original column filtered by the same row mask. -/
theorem C2_remove_union (f : ℚ → ℚ) (df : DFrame) (cols : List String) (t m : ℚ)
    (hWF : WF df) (hidx : df.index = List.range df.nrows) :
    (processOutliersBackend f df cols "remove" t m).df.index
        = List.range (df.nrows - (unionOutlierLabels df cols t m).length) ∧
      (processOutliersBackend f df cols "remove" t m).df.nrows
        = df.nrows - (unionOutlierLabels df cols t m).length ∧
      (processOutliersBackend f df cols "remove" t m).df.numCols
        = df.numCols.map (fun p => (p.1, zipKeep p.2 (df.index.map
            (fun lbl => if lbl ∈ unionOutlierLabels df cols t m then false else true)))) ∧
      (processOutliersBackend f df cols "remove" t m).df.strCols
        = df.strCols.map (fun p => (p.1, zipKeep p.2 (df.index.map
            (fun lbl => if lbl ∈ unionOutlierLabels df cols t m then false else true)))) := by
  obtain ⟨hdf, hsum, hnd, hmem⟩ := foldB_remove f t m cols ⟨df, [], []⟩
  set st := cols.foldl (stepColumnB f "remove" t m) ⟨df, [], []⟩ with hst
  set u := unionOutlierLabels df cols t m with hu
  have hdf' : st.df = df := hdf
  have hmemu : ∀ x, x ∈ st.removed ↔ x ∈ u := by
    intro x
    rw [hmem x, hu]
    unfold unionOutlierLabels
    rw [List.mem_dedup, List.mem_flatten]
    constructor
    · rintro (hx | ⟨c, hc, hx⟩)
      · simp at hx
      · exact ⟨colLabels df t m c, List.mem_map.mpr ⟨c, hc, rfl⟩, hx⟩
    · rintro ⟨l, hl, hx⟩
      rcases List.mem_map.mp hl with ⟨c, hc, rfl⟩
      exact Or.inr ⟨c, hc, hx⟩
  have hndu : u.Nodup := List.nodup_dedup _
  have hndr : st.removed.Nodup := by
    apply hnd
    · show df.index.Nodup
      rw [hidx]; exact List.nodup_range _
    · exact List.nodup_nil
  have hsubu : ∀ x ∈ u, x ∈ List.range df.nrows := by
    intro x hx
    rw [hu] at hx
    unfold unionOutlierLabels at hx
    rw [List.mem_dedup, List.mem_flatten] at hx
    rcases hx with ⟨l, hl, hx⟩
    rcases List.mem_map.mp hl with ⟨c, _, rfl⟩
    rw [← hidx]
    exact colLabels_subset_index hx
  have hperm : List.Perm st.removed u :=
    (List.perm_ext_iff_of_nodup hndr hndu).mpr hmemu
  have hlen : st.removed.length = u.length := hperm.length_eq
  have hmask : df.index.map (fun lbl => if lbl ∈ st.removed then false else true)
      = df.index.map (fun lbl => if lbl ∈ u then false else true) := by
    apply List.map_congr_left
    intro a _
    by_cases h : a ∈ st.removed
    · rw [if_pos h, if_pos ((hmemu a).mp h)]
    · rw [if_neg h, if_neg (fun h2 => h ((hmemu a).mpr h2))]
  by_cases hre : st.removed = []
  · have hunil : u = [] := by
      rw [List.eq_nil_iff_forall_not_mem]
      intro x hx
      have : x ∈ st.removed := (hmemu x).mpr hx
      rw [hre] at this
      simp at this
    have hbranch : processOutliersBackend f df cols "remove" t m
        = ⟨st.df, st.summary, none⟩ := by
      unfold processOutliersBackend
      rw [← hst]
      rw [if_neg (by simp [hre])]
    rw [hbranch]
    have hcoltriv : ∀ {α : Type} (cells : List α),
        cells.length = df.index.length →
        zipKeep cells (df.index.map (fun lbl => if lbl ∈ u then false else true)) = cells := by
      intro α cells hlen2
      apply zipKeep_all_true
      · intro b hb
        rcases List.mem_map.mp hb with ⟨lbl, _, rfl⟩
        simp [hunil]
      · rw [List.length_map, hlen2]
    refine ⟨?_, ?_, ?_, ?_⟩
    · rw [hdf', hunil]
      simpa using hidx
    · show st.df.index.length = _
      rw [hdf', hunil, hidx]
      simp
    · rw [hdf']
      have : ∀ p ∈ df.numCols,
          (p.1, zipKeep p.2 (df.index.map (fun lbl => if lbl ∈ u then false else true))) = p := by
        intro p hp
        rw [hcoltriv p.2 (hWF.1 p hp)]
      rw [List.map_congr_left this]
      simp
    · rw [hdf']
      have : ∀ p ∈ df.strCols,
          (p.1, zipKeep p.2 (df.index.map (fun lbl => if lbl ∈ u then false else true))) = p := by
        intro p hp
        rw [hcoltriv p.2 (hWF.2 p hp)]
      rw [List.map_congr_left this]
      simp
  · have hbranch : processOutliersBackend f df cols "remove" t m
        = ⟨⟨List.range (zipKeep st.df.index (st.df.index.map
              (fun lbl => if lbl ∈ st.removed then false else true))).length,
            (rowFilter st.df (st.df.index.map
              (fun lbl => if lbl ∈ st.removed then false else true))).numCols,
            (rowFilter st.df (st.df.index.map
              (fun lbl => if lbl ∈ st.removed then false else true))).strCols⟩,
          st.summary,
          some ⟨st.df.index.length,
            (List.range (zipKeep st.df.index (st.df.index.map
              (fun lbl => if lbl ∈ st.removed then false else true))).length).length,
            st.df.index.length - (List.range (zipKeep st.df.index (st.df.index.map
              (fun lbl => if lbl ∈ st.removed then false else true))).length).length,
            st.removed.length⟩⟩ := by
      unfold processOutliersBackend
      rw [← hst]
      rw [if_pos ⟨rfl, hre⟩]
      rfl
    have hkeep : zipKeep st.df.index (st.df.index.map
        (fun lbl => if lbl ∈ st.removed then false else true))
        = (List.range df.nrows).filter (fun lbl => if lbl ∈ u then false else true) := by
      rw [hdf', hmask]
      rw [show df.index.map (fun lbl => if lbl ∈ u then false else true)
          = df.index.map (fun lbl => if lbl ∈ u then false else true) from rfl]
      rw [zipKeep_map_self, hidx]
    have hklen : (zipKeep st.df.index (st.df.index.map
        (fun lbl => if lbl ∈ st.removed then false else true))).length
        = df.nrows - u.length := by
      rw [hkeep, length_filter_not_mem u df.nrows hndu hsubu]
    rw [hbranch]
    refine ⟨?_, ?_, ?_, ?_⟩
    · show List.range _ = _
      rw [hklen]
    · show (List.range _).length = _
      rw [hklen, List.length_range]
    · show st.df.numCols.map _ = _
      rw [hdf', hmask]
    · show st.df.strCols.map _ = _
      rw [hdf', hmask]

/-- C2 witness: on the concrete table `dfC2` (well-formed, range index) the
backend `remove` strategy yields a contiguous 0-based index of the right
length. -/
theorem C2_remove_union_witness :
    (processOutliersBackend (fun x => x) dfC2 ["a"] "remove" 3 (3/2)).df.index
        = List.range (dfC2.nrows - (unionOutlierLabels dfC2 ["a"] 3 (3/2)).length) ∧
      (processOutliersBackend (fun x => x) dfC2 ["a"] "remove" 3 (3/2)).df.nrows
        = dfC2.nrows - (unionOutlierLabels dfC2 ["a"] 3 (3/2)).length :=
  ⟨(C2_remove_union (fun x => x) dfC2 ["a"] 3 (3/2) (by constructor <;> decide) (by decide)).1,
    (C2_remove_union (fun x => x) dfC2 ["a"] 3 (3/2) (by constructor <;> decide) (by decide)).2.1⟩

/-! ## Unknown strategies fall through every branch -/

theorem stepB_df_unknown (f : ℚ → ℚ) {strat : String} (t m : ℚ) (st : POutState)
    (c : String) (hr : strat ≠ "remove") (hc : strat ≠ "cap")
    (ht : strat ≠ "transform") :
    (stepColumnB f strat t m st c).df = st.df := by
  unfold stepColumnB
  cases hl : alookup c st.df.numCols with
  | none => rfl
  | some cells =>
    by_cases h4 : validCount cells < 4
    · simp [h4]
    · by_cases h0 : countTrue (combinedFlags cells t m) = 0
      · simp [h4, h0]
      · simp [h4, h0, hr, hc, ht]

theorem foldB_unknown (f : ℚ → ℚ) (strat : String) (t m : ℚ)
    (hr : strat ≠ "remove") (hc : strat ≠ "cap") (ht : strat ≠ "transform") :
    ∀ (cols : List String) (st : POutState),
      (cols.foldl (stepColumnB f strat t m) st).df = st.df ∧
        (cols.foldl (stepColumnB f strat t m) st).summary
          = st.summary ++ cols.filterMap (colSummaryOpt st.df t m) ∧
        (cols.foldl (stepColumnB f strat t m) st).removed = st.removed := by
  intro cols
  induction cols with
  | nil => intro st; exact ⟨rfl, by simp, rfl⟩
  | cons c rest ih =>
    intro st
    set st1 := stepColumnB f strat t m st c with hst1
    have hdf1 : st1.df = st.df := stepB_df_unknown f t m st c hr hc ht
    have hsum1 := stepB_summary f strat t m st c
    have hrem1 := stepB_removed_of_ne f t m st c hr
    obtain ⟨ihdf, ihsum, ihrem⟩ := ih st1
    have hfold : (c :: rest).foldl (stepColumnB f strat t m) st
        = rest.foldl (stepColumnB f strat t m) st1 := rfl
    rw [hfold]
    refine ⟨ihdf.trans hdf1, ?_, ihrem.trans hrem1⟩
    rw [ihsum, hsum1, hdf1, List.append_assoc]
    congr 1
    cases hopt : colSummaryOpt st.df t m c <;> simp [List.filterMap_cons, hopt]

/-- C5 (amended): an unrecognized outlier strategy is not rejected and does
not abort the invocation. Detection and the per-column summary still run,
but no branch of the remediation dispatch fires: the table is returned
unchanged and there is no removal record. (The resolver never raises for any
strategy name; the source has no validation of `strategy` at all.) -/
theorem C5_unknown_strategy (f : ℚ → ℚ) (df : DFrame) (cols : List String)
    (strat : String) (t m : ℚ)
    (hns : strat ∉ (["cap", "remove", "transform"] : List String)) :
    (processOutliersBackend f df cols strat t m).df = df ∧
      (processOutliersBackend f df cols strat t m).removal = none ∧
      (processOutliersBackend f df cols strat t m).summary
        = cols.filterMap (colSummaryOpt df t m) := by
  have hr : strat ≠ "remove" := fun h => hns (by rw [h]; simp)
  have hc : strat ≠ "cap" := fun h => hns (by rw [h]; simp)
  have ht : strat ≠ "transform" := fun h => hns (by rw [h]; simp)
  obtain ⟨h1, h2, h3⟩ := foldB_unknown f strat t m hr hc ht cols ⟨df, [], []⟩
  have hbranch : processOutliersBackend f df cols strat t m
      = ⟨(cols.foldl (stepColumnB f strat t m) ⟨df, [], []⟩).df,
          (cols.foldl (stepColumnB f strat t m) ⟨df, [], []⟩).summary, none⟩ := by
    unfold processOutliersBackend
    rw [if_neg (fun hcontra => hr hcontra.1)]
  rw [hbranch]
  exact ⟨h1, rfl, by simpa using h2⟩

/-- C5 witness: a concrete invocation with the invalid strategy name
`"median"` on a table that does contain an outlier. -/
theorem C5_unknown_strategy_witness :
    (processOutliersBackend (fun x => x) dfC2 ["a"] "median" 3 (3/2)).df = dfC2 ∧
      (processOutliersBackend (fun x => x) dfC2 ["a"] "median" 3 (3/2)).removal = none ∧
      (processOutliersBackend (fun x => x) dfC2 ["a"] "median" 3 (3/2)).summary
        = ["a"].filterMap (colSummaryOpt dfC2 3 (3/2)) :=
  C5_unknown_strategy (fun x => x) dfC2 ["a"] "median" 3 (3/2) (by decide)

/-- C5 counterexample: the claim says an invocation with a strategy outside
`{cap, remove, transform}` fails before any stage executes. In the code
there is no validation at all: with strategy `"median"` the call completes
normally, the table comes back unchanged, no removal record exists, and the
detection stage demonstrably ran (the summary has an entry for column `a`). -/
theorem C5_counterexample :
    (processOutliersBackend (fun x => x) dfC2 ["a"] "median" 3 (3/2)).df = dfC2 ∧
      (processOutliersBackend (fun x => x) dfC2 ["a"] "median" 3 (3/2)).removal = none ∧
      (processOutliersBackend (fun x => x) dfC2 ["a"] "median" 3 (3/2)).summary ≠ [] := by
  obtain ⟨h1, h2, h3⟩ :=
    foldB_unknown (fun x => x) "median" 3 (3/2) (by decide) (by decide) (by decide)
      ["a"] ⟨dfC2, [], []⟩
  have hbranch : processOutliersBackend (fun x => x) dfC2 ["a"] "median" 3 (3/2)
      = ⟨(["a"].foldl (stepColumnB (fun x => x) "median" 3 (3/2)) ⟨dfC2, [], []⟩).df,
          (["a"].foldl (stepColumnB (fun x => x) "median" 3 (3/2)) ⟨dfC2, [], []⟩).summary,
          none⟩ := by
    unfold processOutliersBackend
    rw [if_neg (fun hcontra => by exact absurd hcontra.1 (by decide))]
  rw [hbranch]
  refine ⟨h1, rfl, ?_⟩
  show (["a"].foldl (stepColumnB (fun x => x) "median" 3 (3/2))
      ⟨dfC2, [], []⟩).summary ≠ []
  rw [h2]
  have hcol : colSummaryOpt dfC2 3 (3/2) "a"
      = some ("a", mkColSummary dfC2.index [some 100, some 1, some 1, some 1, some 1] 3 (3/2)) := by
    unfold colSummaryOpt
    rw [show alookup "a" dfC2.numCols
        = some [some 100, some 1, some 1, some 1, some 1] from by decide]
    show (if validCount [some 100, some 1, some 1, some 1, some 1] < 4 then none
        else some ("a", mkColSummary dfC2.index
          [some 100, some 1, some 1, some 1, some 1] 3 (3/2))) = _
    rw [if_neg (by decide)]
  simp [hcol]

/-! ## Lookup through column-wise table maps -/

theorem alookup_map_snd {β γ : Type} (g : β → γ) :
    ∀ (L : List (String × β)) (k : String),
      alookup k (L.map (fun p => (p.1, g p.2))) = (alookup k L).map g := by
  intro L
  induction L with
  | nil => intro k; simp [alookup]
  | cons p t ih =>
    intro k
    by_cases hp : p.1 = k
    · simp [alookup, hp]
    · simp [alookup, hp, ih k]

/-! ## Looking a column up in the recorded summary -/

theorem colSummaryOpt_key {df : DFrame} {t m : ℚ} {c : String}
    {p : String × ColSummary} (h : colSummaryOpt df t m c = some p) : p.1 = c := by
  unfold colSummaryOpt at h
  cases hl : alookup c df.numCols with
  | none => rw [hl] at h; simp at h
  | some cells =>
    rw [hl] at h
    by_cases h4 : validCount cells < 4
    · simp [h4] at h
    · simp only [h4, if_false] at h
      cases h
      rfl

theorem alookup_eq_none_of_keys {β : Type} {k : String} :
    ∀ {L : List (String × β)}, (∀ p ∈ L, p.1 ≠ k) → alookup k L = none := by
  intro L
  induction L with
  | nil => intro _; rfl
  | cons p t ih =>
    intro h
    rw [alookup, if_neg (h p (List.mem_cons_self _ _))]
    exact ih (fun q hq => h q (List.mem_cons_of_mem _ hq))

theorem alookup_filterMap_summary (df : DFrame) (t m : ℚ) (col : String) :
    ∀ (cols : List String), cols.Nodup → col ∈ cols →
      alookup col (cols.filterMap (colSummaryOpt df t m))
        = (colSummaryOpt df t m col).map Prod.snd := by
  intro cols
  induction cols with
  | nil => intro _ hmem; simp at hmem
  | cons c rest ih =>
    intro hnd hmem
    rcases List.nodup_cons.mp hnd with ⟨hcr, hndr⟩
    have hnone_rest : col ∉ rest →
        alookup col (rest.filterMap (colSummaryOpt df t m)) = none := by
      intro hno
      apply alookup_eq_none_of_keys
      intro p hp
      rcases List.mem_filterMap.mp hp with ⟨c1, hc1, hps⟩
      rw [colSummaryOpt_key hps]
      exact fun h => hno (h ▸ hc1)
    rw [List.filterMap_cons]
    cases hc0 : colSummaryOpt df t m c with
    | none =>
      rcases List.mem_cons.mp hmem with rfl | hrest
      · rw [hnone_rest hcr, hc0]
        rfl
      · exact ih hndr hrest
    | some p =>
      have hkey : p.1 = c := colSummaryOpt_key hc0
      rcases List.mem_cons.mp hmem with rfl | hrest
      · rw [alookup, if_pos (by rw [hkey]), hc0]
        rfl
      · have hne : ¬ (p.1 = col) := by
          rw [hkey]
          exact fun h => hcr (h ▸ hrest)
        rw [alookup, if_neg hne]
        exact ih hndr hrest

/-- C4 (amended: the z-score test uses the population (ddof = 0) standard
deviation computed by `scipy.stats.zscore`, not the Bessel-corrected sample
estimator). For every processed numeric column with at least 4 non-missing
values — under any strategy — the recorded outlier report is exactly the OR
of the z-score flags and the IQR flags of the original column (counts from
each test, and the flagged row labels of the union); a column with fewer
than 4 non-missing values is skipped and gets no report. -/
theorem C4_detection_summary (f : ℚ → ℚ) (df : DFrame) (cols : List String)
    (strat : String) (t m : ℚ) (col : String) (cells : List (Option ℚ))
    (hnd : cols.Nodup) (hmem : col ∈ cols)
    (hlook : alookup col df.numCols = some cells) :
    alookup col (processOutliersBackend f df cols strat t m).summary
      = if validCount cells < 4 then none
        else some ⟨countTrue (orFlags (isOutlierZscore cells t) (isOutlierIqr cells m)),
            countTrue (isOutlierZscore cells t),
            countTrue (isOutlierIqr cells m),
            flaggedLabels df.index
              (orFlags (isOutlierZscore cells t) (isOutlierIqr cells m))⟩ := by
  have hsummary : (processOutliersBackend f df cols strat t m).summary
      = cols.filterMap (colSummaryOpt df t m) := by
    by_cases hr : strat = "remove"
    · subst hr
      obtain ⟨hdf, hsum, _, _⟩ := foldB_remove f t m cols ⟨df, [], []⟩
      unfold processOutliersBackend
      by_cases hne : (cols.foldl (stepColumnB f "remove" t m) ⟨df, [], []⟩).removed = []
      · rw [if_neg (by simp [hne])]
        simpa using hsum
      · rw [if_pos ⟨rfl, hne⟩]
        simpa using hsum
    · obtain ⟨_, _, hsum, _⟩ := foldB_spec f strat t m cols ⟨df, [], []⟩ hnd
      unfold processOutliersBackend
      rw [if_neg (fun hcontra => hr hcontra.1)]
      simpa using hsum
  rw [hsummary, alookup_filterMap_summary df t m col cols hnd hmem]
  unfold colSummaryOpt
  rw [hlook]
  by_cases h4 : validCount cells < 4
  · simp [h4]
  · simp [h4, mkColSummary, combinedFlags]

/-- C4 witness at the concrete column `[0, 0, 0, 1]` (4 valid values)
processed under `cap`. -/
theorem C4_detection_summary_witness :
    alookup "a" (processOutliersBackend (fun x => x) dfC4 ["a"] "cap" (8/5) 100).summary
      = if validCount [some 0, some 0, some 0, some 1] < 4 then none
        else some ⟨countTrue (orFlags (isOutlierZscore [some 0, some 0, some 0, some 1] (8/5))
              (isOutlierIqr [some 0, some 0, some 0, some 1] 100)),
            countTrue (isOutlierZscore [some 0, some 0, some 0, some 1] (8/5)),
            countTrue (isOutlierIqr [some 0, some 0, some 0, some 1] 100),
            flaggedLabels dfC4.index
              (orFlags (isOutlierZscore [some 0, some 0, some 0, some 1] (8/5))
                (isOutlierIqr [some 0, some 0, some 0, some 1] 100))⟩ :=
  C4_detection_summary (fun x => x) dfC4 ["a"] "cap" (8/5) 100 "a"
    [some 0, some 0, some 0, some 1] (by decide) (by decide) (by decide)

/-! ## The `cap` strategy -/

theorem capTwoPass (lb ub : ℚ) (hlbub : lb ≤ ub) :
    ∀ (cells : List (Option ℚ)) (flags : List Bool),
      ((((cells.zip flags).map (fun p =>
          match p with
          | (some x, true) => if x < lb then some lb else some x
          | (c, _) => c)).zip flags).map (fun p =>
          match p with
          | (some x, true) => if ub < x then some ub else some x
          | (c, _) => c))
        = (cells.zip flags).map (fun p =>
          match p with
          | (some x, true) =>
            if x < lb then some lb else if ub < x then some ub else some x
          | (c, _) => c) := by
  intro cells
  induction cells with
  | nil => intro flags; simp
  | cons c cs ih =>
    intro flags
    cases flags with
    | nil => simp
    | cons b bs =>
      rw [List.zip_cons_cons, List.map_cons, List.zip_cons_cons, List.map_cons,
        List.map_cons]
      rw [ih bs]
      congr 1
      cases c with
      | none => cases b <;> rfl
      | some x =>
        cases b with
        | false => rfl
        | true =>
          by_cases hx : x < lb
          · have hub : ¬ ub < lb := not_lt.mpr hlbub
            simp [hx, hub]
          · simp [hx]

/-- The two sequential masked assignments of the `cap` branch are the
one-pass clipping map (valid because the 5th percentile is below the 95th). -/
theorem capColumn_onepass (cells : List (Option ℚ)) (flags : List Bool) :
    capColumn cells flags = (cells.zip flags).map (fun p =>
      match p with
      | (some x, true) =>
        if x < quantileLin (validVals cells) (1/20) then
          some (quantileLin (validVals cells) (1/20))
        else if quantileLin (validVals cells) (19/20) < x then
          some (quantileLin (validVals cells) (19/20))
        else some x
      | (c, _) => c) := by
  unfold capColumn
  exact capTwoPass _ _ (quantileLin_p5_le_p95 (validVals cells)) cells flags

theorem combinedFlags_length (cells : List (Option ℚ)) (t m : ℚ) :
    (combinedFlags cells t m).length = cells.length := by
  unfold combinedFlags orFlags isOutlierZscore isOutlierIqr
  by_cases h2 : (validVals cells).length < 2 <;>
    by_cases h4 : (validVals cells).length < 4 <;>
      simp [h2, h4]

theorem zip_map_keep_of_false (F : Option ℚ × Bool → Option ℚ)
    (hF : ∀ c, F (c, false) = c) :
    ∀ (cells : List (Option ℚ)) (flags : List Bool),
      (∀ b ∈ flags, b = false) → cells.length ≤ flags.length →
      (cells.zip flags).map F = cells := by
  intro cells
  induction cells with
  | nil => intro flags _ _; simp
  | cons c cs ih =>
    intro flags hall hlen
    cases flags with
    | nil => simp at hlen
    | cons b bs =>
      have hb : b = false := hall b (List.mem_cons_self _ _)
      subst hb
      rw [List.zip_cons_cons, List.map_cons, hF c,
        ih bs (fun x hx => hall x (List.mem_cons_of_mem _ hx)) (Nat.succ_le_succ_iff.mp hlen)]

/-- C6. Under `cap`, the processed column's result is exactly: flagged
values below the 5th percentile land on the 5th percentile, flagged values
above the 95th land on the 95th, everything else (including all non-outlier
values and missing cells) is unchanged; both percentiles are those of the
column as given to the resolver (the already-imputed column), not
recomputed after capping. Columns with fewer than 4 valid values are
untouched. -/
theorem C6_cap (f : ℚ → ℚ) (df : DFrame) (cols : List String) (t m : ℚ)
    (col : String) (cells : List (Option ℚ))
    (hnd : cols.Nodup) (hmem : col ∈ cols)
    (hlook : alookup col df.numCols = some cells) :
    alookup col (processOutliersBackend f df cols "cap" t m).df.numCols
      = some (if validCount cells < 4 then cells
          else (cells.zip (combinedFlags cells t m)).map (fun p =>
            match p with
            | (some x, true) =>
              if x < quantileLin (validVals cells) (1/20) then
                some (quantileLin (validVals cells) (1/20))
              else if quantileLin (validVals cells) (19/20) < x then
                some (quantileLin (validVals cells) (19/20))
              else some x
            | (c, _) => c)) := by
  obtain ⟨_, _, _, hlookF⟩ := foldB_spec f "cap" t m cols ⟨df, [], []⟩ hnd
  have hbranch : (processOutliersBackend f df cols "cap" t m).df
      = (cols.foldl (stepColumnB f "cap" t m) ⟨df, [], []⟩).df := by
    unfold processOutliersBackend
    rw [if_neg (fun hcontra => by exact absurd hcontra.1 (by decide))]
  rw [hbranch, hlookF col, if_pos hmem]
  show Option.map _ (alookup col df.numCols) = _
  rw [hlook]
  show some (oneColUpdate f "cap" t m cells) = _
  congr 1
  unfold oneColUpdate
  by_cases h4 : validCount cells < 4
  · simp [h4]
  · rw [if_neg h4, if_neg h4]
    by_cases h0 : countTrue (combinedFlags cells t m) = 0
    · rw [if_pos h0]
      rw [zip_map_keep_of_false _ (fun c => by cases c <;> rfl) cells (combinedFlags cells t m)
        ((countTrue_zero_iff _).mp h0) (le_of_eq (combinedFlags_length cells t m).symm)]
    · rw [if_neg h0, if_neg (by decide), if_pos rfl]
      exact capColumn_onepass cells (combinedFlags cells t m)

/-- C6 witness at the concrete column `[100, 1, 1, 1, 1]` (value 100 is an
IQR outlier). -/
theorem C6_cap_witness :
    alookup "a" (processOutliersBackend (fun x => x) dfC2 ["a"] "cap" 3 (3/2)).df.numCols
      = some (if validCount [some 100, some 1, some 1, some 1, some 1] < 4 then
          [some 100, some 1, some 1, some 1, some 1]
        else ([some 100, some 1, some 1, some 1, some (1:ℚ)].zip
            (combinedFlags [some 100, some 1, some 1, some 1, some 1] 3 (3/2))).map (fun p =>
          match p with
          | (some x, true) =>
            if x < quantileLin (validVals [some 100, some 1, some 1, some 1, some 1]) (1/20) then
              some (quantileLin (validVals [some 100, some 1, some 1, some 1, some 1]) (1/20))
            else if quantileLin (validVals [some 100, some 1, some 1, some 1, some 1]) (19/20) < x then
              some (quantileLin (validVals [some 100, some 1, some 1, some 1, some 1]) (19/20))
            else some x
          | (c, _) => c)) :=
  C6_cap (fun x => x) dfC2 ["a"] 3 (3/2) "a"
    [some 100, some 1, some 1, some 1, some 1] (by decide) (by decide) (by decide)

/-! ## The `transform` strategy -/

theorem transformColumn_pos (f : ℚ → ℚ) {cells : List (Option ℚ)}
    (hpos : ∀ c ∈ cells, ∃ x, c = some x ∧ 0 < x) :
    transformColumn f cells = cells.map (Option.map f) := by
  unfold transformColumn
  rw [if_pos]
  rw [List.all_eq_true]
  intro c hc
  rcases hpos c hc with ⟨x, rfl, hx⟩
  simp [hx]

theorem transformColumn_nonpos (f : ℚ → ℚ) {cells : List (Option ℚ)}
    (hneg : ¬ ∀ c ∈ cells, ∃ x, c = some x ∧ 0 < x) :
    transformColumn f cells = cells := by
  unfold transformColumn
  rw [if_neg]
  intro hall
  apply hneg
  intro c hc
  have := List.all_eq_true.mp hall c hc
  cases c with
  | none => simp at this
  | some x =>
    refine ⟨x, rfl, ?_⟩
    by_cases hx : 0 < x
    · exact hx
    · simp [hx] at this

/-- C9 (amended): under `transform`, a processed numeric column is replaced
by `log1p` of itself (the abstracted `f`) exactly when it has at least 4
non-missing values, at least one detected outlier, and every cell is
present and strictly positive (`(col > 0).all()`, in which a missing cell
counts as non-positive); in every other case — including an outlier-free
all-positive column — the column is left unchanged. -/
theorem C9_transform (f : ℚ → ℚ) (df : DFrame) (cols : List String) (t m : ℚ)
    (col : String) (cells : List (Option ℚ))
    (hnd : cols.Nodup) (hmem : col ∈ cols)
    (hlook : alookup col df.numCols = some cells) :
    (¬ validCount cells < 4 → countTrue (combinedFlags cells t m) ≠ 0 →
        (∀ c ∈ cells, ∃ x, c = some x ∧ 0 < x) →
        alookup col (processOutliersBackend f df cols "transform" t m).df.numCols
          = some (cells.map (Option.map f))) ∧
      (¬ (∀ c ∈ cells, ∃ x, c = some x ∧ 0 < x) →
        alookup col (processOutliersBackend f df cols "transform" t m).df.numCols
          = some cells) ∧
      (validCount cells < 4 →
        alookup col (processOutliersBackend f df cols "transform" t m).df.numCols
          = some cells) ∧
      (countTrue (combinedFlags cells t m) = 0 →
        alookup col (processOutliersBackend f df cols "transform" t m).df.numCols
          = some cells) := by
  obtain ⟨_, _, _, hlookF⟩ := foldB_spec f "transform" t m cols ⟨df, [], []⟩ hnd
  have hbranch : (processOutliersBackend f df cols "transform" t m).df
      = (cols.foldl (stepColumnB f "transform" t m) ⟨df, [], []⟩).df := by
    unfold processOutliersBackend
    rw [if_neg (fun hcontra => by exact absurd hcontra.1 (by decide))]
  have hbase : alookup col (processOutliersBackend f df cols "transform" t m).df.numCols
      = some (oneColUpdate f "transform" t m cells) := by
    rw [hbranch, hlookF col, if_pos hmem]
    show Option.map _ (alookup col df.numCols) = _
    rw [hlook]
    rfl
  refine ⟨?_, ?_, ?_, ?_⟩
  · intro h4 h0 hpos
    rw [hbase]
    unfold oneColUpdate
    rw [if_neg h4, if_neg h0, if_neg (by decide), if_neg (by decide), if_pos rfl,
      transformColumn_pos f hpos]
  · intro hneg
    rw [hbase]
    unfold oneColUpdate
    by_cases h4 : validCount cells < 4
    · rw [if_pos h4]
    · rw [if_neg h4]
      by_cases h0 : countTrue (combinedFlags cells t m) = 0
      · rw [if_pos h0]
      · rw [if_neg h0, if_neg (by decide), if_neg (by decide), if_pos rfl,
          transformColumn_nonpos f hneg]
  · intro h4
    rw [hbase]
    unfold oneColUpdate
    rw [if_pos h4]
  · intro h0
    rw [hbase]
    unfold oneColUpdate
    by_cases h4 : validCount cells < 4
    · rw [if_pos h4]
    · rw [if_neg h4, if_pos h0]

/-! ## Concrete evaluation of the detectors on the column `[100,1,1,1,1]` -/

theorem meanEvalC2 : meanQ [100, 1, 1, 1, (1:ℚ)] = 104/5 := by norm_num [meanQ]

theorem varEvalC2 : popVarQ [100, 1, 1, 1, (1:ℚ)] = 39204/25 := by
  norm_num [popVarQ, meanEvalC2]

theorem sortEvalC2 :
    List.insertionSort (· ≤ ·) [100, 1, 1, 1, (1:ℚ)] = [1, 1, 1, 1, 100] := rfl

theorem q1EvalC2 : quantileLin [100, 1, 1, 1, (1:ℚ)] (1/4) = 1 := by
  rw [quantileLin, sortEvalC2]
  norm_num [interpAt, Int.toNat_ofNat, List.getD]

theorem q3EvalC2 : quantileLin [100, 1, 1, 1, (1:ℚ)] (3/4) = 1 := by
  rw [quantileLin, sortEvalC2]
  norm_num [interpAt, Int.toNat_ofNat, List.getD, show Int.toNat 3 = 3 from rfl]

theorem validValsC2 : List.filterMap (fun a => id a)
    [some 100, some 1, some 1, some 1, some (1:ℚ)] = [100, 1, 1, 1, 1] := rfl

/-- On `[100,1,1,1,1]` with the default thresholds, only the IQR test fires,
and only on the value 100 (both quartiles are 1, so the fences are `[1,1]`;
the z-score of 100 is below 3 because the variance is huge). -/
theorem flagsEvalC2 :
    combinedFlags [some 100, some 1, some 1, some 1, some 1] 3 (3/2)
      = [true, false, false, false, false] := by
  norm_num [combinedFlags, orFlags, isOutlierZscore, isOutlierIqr, validVals,
    validValsC2, meanEvalC2, varEvalC2, q1EvalC2, q3EvalC2]

/-- C9 witness: an all-positive column with an outlier is mapped by `f`
elementwise. -/
theorem C9_transform_witness :
    alookup "a" (processOutliersBackend (fun x => x + 1) dfC2 ["a"] "transform"
        3 (3/2)).df.numCols
      = some ([some 100, some 1, some 1, some 1, some (1:ℚ)].map
          (Option.map (fun x => x + 1))) := by
  have h := (C9_transform (fun x => x + 1) dfC2 ["a"] 3 (3/2) "a"
    [some 100, some 1, some 1, some 1, some 1] (by decide) (by decide) (by decide)).1
  exact h (by decide) (by rw [flagsEvalC2]; decide) (by decide)

/-- C2 counterexample, against `cleaner.py`'s `process_outliers` (lines
106–108): its `remove` strategy filters rows inside the per-column loop and
never resets the index, so on `dfC2` (labels `0..4`, outlier in row 0) the
output index is `[1,2,3,4]` — the row labels are not re-indexed contiguously
from 0 as the claim states. -/
theorem C2_counterexample :
    (processOutliersCleaner (fun x => x) dfC2 ["a"] "remove" 3 (3/2)).1.index
        = [1, 2, 3, 4] ∧
      (processOutliersCleaner (fun x => x) dfC2 ["a"] "remove" 3 (3/2)).1.index
        ≠ List.range
            (processOutliersCleaner (fun x => x) dfC2 ["a"] "remove" 3 (3/2)).1.nrows := by
  have hstep : processOutliersCleaner (fun x => x) dfC2 ["a"] "remove" 3 (3/2)
      = (rowFilter dfC2 ([true, false, false, false, false].map (fun b => !b)),
          [("a", mkColSummary dfC2.index
            [some 100, some 1, some 1, some 1, some 1] 3 (3/2))]) := by
    show stepColumnC (fun x => x) "remove" 3 (3/2) (dfC2, []) "a" = _
    simp only [stepColumnC]
    rw [show alookup "a" dfC2.numCols
        = some [some 100, some 1, some 1, some 1, some 1] from by decide]
    norm_num [countTrue, flagsEvalC2,
      show validCount [some 100, some 1, some 1, some 1, some 1] = 5 from rfl]
  rw [hstep]
  exact ⟨by decide, by decide⟩

/-! ## Concrete evaluation on the column `[0,0,0,1]` -/

theorem meanEvalC4 : meanQ [0, 0, 0, (1:ℚ)] = 1/4 := by norm_num [meanQ]

theorem varEvalC4 : popVarQ [0, 0, 0, (1:ℚ)] = 3/16 := by
  norm_num [popVarQ, meanEvalC4]

theorem svarEvalC4 : sampleVarQ [0, 0, 0, (1:ℚ)] = 1/4 := by
  norm_num [sampleVarQ, meanEvalC4]

theorem sortEvalC4 : List.insertionSort (· ≤ ·) [0, 0, 0, (1:ℚ)] = [0, 0, 0, 1] := rfl

theorem q1EvalC4 : quantileLin [0, 0, 0, (1:ℚ)] (1/4) = 0 := by
  rw [quantileLin, sortEvalC4]
  norm_num [interpAt, List.getD, show Int.floor ((3:ℚ)/4) = 0 from by
    norm_num [Int.floor_eq_iff]]

theorem q3EvalC4 : quantileLin [0, 0, 0, (1:ℚ)] (3/4) = 1/4 := by
  rw [quantileLin, sortEvalC4]
  norm_num [interpAt, List.getD, show Int.floor ((9:ℚ)/4) = 2 from by
    norm_num [Int.floor_eq_iff], show Int.toNat 2 = 2 from rfl]

theorem validValsC4 : List.filterMap (fun a => id a)
    [some 0, some 0, some 0, some (1:ℚ)] = [0, 0, 0, 1] := rfl

/-- C4 counterexample: on the column `[0, 0, 0, 1]` with `z_threshold = 8/5`
and `iqr_multiplier = 100`, the code's combined outlier mask (built with
`scipy.stats.zscore`'s population/ddof-0 standard deviation) flags the value
1, while the claim's "sample standard deviation" (ddof = 1) reading flags
nothing; the combined sets differ, so the claim as stated is false. -/
theorem C4_counterexample :
    combinedFlags [some 0, some 0, some 0, some 1] (8/5) 100
        = [false, false, false, true] ∧
      combinedFlagsSample [some 0, some 0, some 0, some 1] (8/5) 100
        = [false, false, false, false] ∧
      combinedFlags [some 0, some 0, some 0, some 1] (8/5) 100
        ≠ combinedFlagsSample [some 0, some 0, some 0, some 1] (8/5) 100 := by
  have h1 : combinedFlags [some 0, some 0, some 0, some 1] (8/5) 100
      = [false, false, false, true] := by
    norm_num [combinedFlags, orFlags, isOutlierZscore, isOutlierIqr, validVals,
      validValsC4, meanEvalC4, varEvalC4, q1EvalC4, q3EvalC4]
  have h2 : combinedFlagsSample [some 0, some 0, some 0, some 1] (8/5) 100
      = [false, false, false, false] := by
    norm_num [combinedFlagsSample, orFlags, isOutlierZscoreSample, isOutlierIqr, validVals,
      validValsC4, meanEvalC4, svarEvalC4, q1EvalC4, q3EvalC4]
  exact ⟨h1, h2, by rw [h1, h2]; decide⟩

/-! ## Concrete evaluation on the column `[1,2,3,4]` -/

theorem meanEvalC9 : meanQ [1, 2, 3, (4:ℚ)] = 5/2 := by norm_num [meanQ]

theorem varEvalC9 : popVarQ [1, 2, 3, (4:ℚ)] = 5/4 := by
  norm_num [popVarQ, meanEvalC9]

theorem sortEvalC9 : List.insertionSort (· ≤ ·) [1, 2, 3, (4:ℚ)] = [1, 2, 3, 4] := rfl

theorem q1EvalC9 : quantileLin [1, 2, 3, (4:ℚ)] (1/4) = 7/4 := by
  rw [quantileLin, sortEvalC9]
  norm_num [interpAt, List.getD, show Int.floor ((3:ℚ)/4) = 0 from by
    norm_num [Int.floor_eq_iff]]

theorem q3EvalC9 : quantileLin [1, 2, 3, (4:ℚ)] (3/4) = 13/4 := by
  rw [quantileLin, sortEvalC9]
  norm_num [interpAt, List.getD, show Int.floor ((9:ℚ)/4) = 2 from by
    norm_num [Int.floor_eq_iff], show Int.toNat 2 = 2 from rfl]

theorem validValsC9 : List.filterMap (fun a => id a)
    [some 1, some 2, some 3, some (4:ℚ)] = [1, 2, 3, 4] := rfl

/-- All-positive, but no value is flagged by either test under the default
thresholds. -/
theorem flagsEvalC9 :
    combinedFlags [some 1, some 2, some 3, some 4] 3 (3/2)
      = [false, false, false, false] := by
  norm_num [combinedFlags, orFlags, isOutlierZscore, isOutlierIqr, validVals,
    validValsC9, meanEvalC9, varEvalC9, q1EvalC9, q3EvalC9]

/-- C9 counterexample: the column `[1, 2, 3, 4]` is numeric with all values
strictly positive, yet the `transform` strategy leaves it untouched (the
log-transform branch is only reached when the column has a detected
outlier, and this one has none) while the claim requires every value `v` to
become `log1p v`; instantiating the abstracted `log1p` with `v + 1` (like
`ln(1+v)`, it moves every positive value) exhibits the mismatch. -/
theorem C9_counterexample :
    alookup "a" (processOutliersBackend (fun v => v + 1) dfC9 ["a"] "transform"
        3 (3/2)).df.numCols
        = some [some 1, some 2, some 3, some 4] ∧
      (∀ c ∈ [some 1, some 2, some 3, some (4:ℚ)], ∃ x, c = some x ∧ 0 < x) ∧
      [some 1, some 2, some 3, some (4:ℚ)].map (Option.map (fun v => v + 1))
        ≠ [some 1, some 2, some 3, some 4] := by
  obtain ⟨_, _, _, hlookF⟩ :=
    foldB_spec (fun v => v + 1) "transform" 3 (3/2) ["a"] ⟨dfC9, [], []⟩ (by decide)
  have hbranch : (processOutliersBackend (fun v => v + 1) dfC9 ["a"] "transform"
      3 (3/2)).df
      = (["a"].foldl (stepColumnB (fun v => v + 1) "transform" 3 (3/2))
          ⟨dfC9, [], []⟩).df := by
    unfold processOutliersBackend
    rw [if_neg (fun hcontra => by exact absurd hcontra.1 (by decide))]
  refine ⟨?_, by decide, by norm_num⟩
  rw [hbranch, hlookF "a", if_pos (by decide)]
  show Option.map _ (alookup "a" dfC9.numCols) = _
  rw [show alookup "a" dfC9.numCols = some [some 1, some 2, some 3, some 4] from by decide]
  show some (oneColUpdate _ "transform" 3 (3/2) [some 1, some 2, some 3, some 4]) = _
  congr 1
  unfold oneColUpdate
  rw [if_neg (by decide), if_pos (by rw [flagsEvalC9]; rfl)]

/-! ## Constant columns: no flags, zero variance, standardized to 0 -/

theorem mem_validVals {cells : List (Option ℚ)} {x : ℚ}
    (h : x ∈ validVals cells) : some x ∈ cells := by
  rcases List.mem_filterMap.mp h with ⟨a, ha, hax⟩
  cases a with
  | none => simp at hax
  | some y =>
    cases hax
    exact ha

theorem sum_constant {c : ℚ} : ∀ {l : List ℚ}, (∀ x ∈ l, x = c) →
    l.sum = l.length * c := by
  intro l
  induction l with
  | nil => intro _; simp
  | cons a t ih =>
    intro h
    rw [List.sum_cons, h a (List.mem_cons_self _ _),
      ih (fun x hx => h x (List.mem_cons_of_mem _ hx)), List.length_cons]
    push_cast
    ring

theorem meanQ_constant {c : ℚ} {l : List ℚ} (h : ∀ x ∈ l, x = c) (hne : l ≠ []) :
    meanQ l = c := by
  unfold meanQ
  rw [sum_constant h]
  have hlen0 : l.length ≠ 0 := fun h0 => hne (List.length_eq_zero.mp h0)
  have hlen : (l.length : ℚ) ≠ 0 := Nat.cast_ne_zero.mpr hlen0
  field_simp

theorem popVarQ_constant {c : ℚ} {l : List ℚ} (h : ∀ x ∈ l, x = c) :
    popVarQ l = 0 := by
  unfold popVarQ
  by_cases hne : l = []
  · subst hne
    simp
  · have hz : ∀ y ∈ l.map (fun x => (x - meanQ l) ^ 2), y = 0 := by
      intro y hy
      rcases List.mem_map.mp hy with ⟨x, hx, rfl⟩
      rw [h x hx, meanQ_constant h hne]
      ring
    rw [sum_constant hz]
    simp

theorem interpAt_constant {s : List ℚ} {c : ℚ} (hconst : ∀ x ∈ s, x = c) {n : ℕ}
    (hlen : s.length = n + 1) {h : ℚ} (hpos : 0 ≤ h) (hn : h ≤ (n : ℚ)) :
    interpAt s h = c := by
  set k : ℕ := (Int.floor h).toNat with hk
  have hfl : (0:ℤ) ≤ Int.floor h := Int.le_floor.mpr (by exact_mod_cast hpos)
  have hkn : k ≤ n := by
    have h1' : Int.floor h ≤ Int.floor ((n : ℚ)) := Int.floor_le_floor hn
    have h2' : Int.floor ((n : ℚ)) = (n : ℤ) := Int.floor_natCast n
    rw [h2'] at h1'
    omega
  have hklen : k < s.length := by omega
  have hxk : s.getD k 0 = c := by
    rw [List.getD_eq_getElem s 0 hklen]
    exact hconst _ (List.getElem_mem hklen)
  have hxk1 : s.getD (k + 1) (s.getD k 0) = c := by
    rcases Nat.lt_or_ge (k + 1) s.length with hin | hout
    · rw [List.getD_eq_getElem s _ hin]
      exact hconst _ (List.getElem_mem hin)
    · rw [List.getD_eq_default s _ hout]
      exact hxk
  unfold interpAt
  rw [← hk, hxk1, hxk]
  ring

theorem quantileLin_constant {c : ℚ} {vals : List ℚ} (h : ∀ x ∈ vals, x = c)
    (hne : vals ≠ []) {q : ℚ} (h0 : 0 ≤ q) (h1 : q ≤ 1) :
    quantileLin vals q = c := by
  unfold quantileLin
  have hsmem : ∀ x ∈ List.insertionSort (· ≤ ·) vals, x = c := by
    intro x hx
    exact h x ((List.perm_insertionSort _ _).mem_iff.mp hx)
  cases hlen : (List.insertionSort (· ≤ ·) vals).length with
  | zero =>
    exfalso
    apply hne
    have := (List.perm_insertionSort (· ≤ ·) vals).length_eq
    rw [hlen] at this
    exact List.length_eq_zero.mp this.symm
  | succ n =>
    have hnn : (0:ℚ) ≤ (n:ℚ) := by positivity
    exact interpAt_constant hsmem hlen (mul_nonneg h0 hnn)
      (by calc q * (n:ℚ) ≤ 1 * (n : ℚ) := mul_le_mul_of_nonneg_right h1 hnn
        _ = (n : ℚ) := one_mul _)

theorem orFlags_all_false : ∀ {a b : List Bool},
    (∀ x ∈ a, x = false) → (∀ x ∈ b, x = false) →
    ∀ x ∈ orFlags a b, x = false := by
  intro a
  induction a with
  | nil => intro b _ _ x hx; simp [orFlags] at hx
  | cons p t ih =>
    intro b ha hb x hx
    cases b with
    | nil => simp [orFlags] at hx
    | cons q u =>
      rw [orFlags, List.zipWith_cons_cons] at hx
      rcases List.mem_cons.mp hx with rfl | hx2
      · rw [ha p (List.mem_cons_self _ _), hb q (List.mem_cons_self _ _)]
        rfl
      · exact ih (fun y hy => ha y (List.mem_cons_of_mem _ hy))
          (fun y hy => hb y (List.mem_cons_of_mem _ hy)) x hx2

/-- A column whose present values are all equal produces no outlier flags:
the z-scores are NaN (zero variance), and the IQR fences collapse onto the
constant itself. -/
theorem combinedFlags_constant {cells : List (Option ℚ)} {c : ℚ}
    (hconst : ∀ y ∈ cells, y = some c) (t m : ℚ) :
    countTrue (combinedFlags cells t m) = 0 := by
  have hvals : ∀ x ∈ validVals cells, x = c := by
    intro x hx
    have := hconst _ (mem_validVals hx)
    injection this
  have hz : ∀ x ∈ isOutlierZscore cells t, x = false := by
    unfold isOutlierZscore
    by_cases h2 : (validVals cells).length < 2
    · intro x hx
      rw [if_pos h2] at hx
      rcases List.mem_map.mp hx with ⟨_, _, rfl⟩
      rfl
    · intro x hx
      rw [if_neg h2] at hx
      rcases List.mem_map.mp hx with ⟨cell, hcell, rfl⟩
      cases cell with
      | none => rfl
      | some y => simp [popVarQ_constant hvals]
  have hq : ∀ x ∈ isOutlierIqr cells m, x = false := by
    unfold isOutlierIqr
    by_cases h4 : (validVals cells).length < 4
    · intro x hx
      rw [if_pos h4] at hx
      rcases List.mem_map.mp hx with ⟨_, _, rfl⟩
      rfl
    · have hne : validVals cells ≠ [] := by
        intro hnil
        rw [hnil] at h4
        simp at h4
      have hq1 : quantileLin (validVals cells) (1/4) = c :=
        quantileLin_constant hvals hne (by norm_num) (by norm_num)
      have hq3 : quantileLin (validVals cells) (3/4) = c :=
        quantileLin_constant hvals hne (by norm_num) (by norm_num)
      intro x hx
      rw [if_neg h4] at hx
      rcases List.mem_map.mp hx with ⟨cell, hcell, rfl⟩
      cases cell with
      | none => rfl
      | some y =>
        have hy : y = c := by
          have := hconst _ hcell
          injection this
        rw [hq1, hq3, hy]
        norm_num
  exact (countTrue_zero_iff _).mpr (orFlags_all_false hz hq)

/-- `StandardScaler` on a constant column: zero variance, scale replaced by
1, every value centred to 0. -/
theorem standardizeCells_constant (sqrtQ : ℚ → ℚ) {cells : List (Option ℚ)} {c : ℚ}
    (hconst : ∀ y ∈ cells, y = some c) :
    popVarQ (validVals cells) = 0 ∧
      (if popVarQ (validVals cells) = 0 then (1:ℚ)
        else sqrtQ (popVarQ (validVals cells))) = 1 ∧
      ∀ y ∈ standardizeCells sqrtQ cells, y = some 0 := by
  have hvals : ∀ x ∈ validVals cells, x = c := by
    intro x hx
    have := hconst _ (mem_validVals hx)
    injection this
  have hvar : popVarQ (validVals cells) = 0 := popVarQ_constant hvals
  refine ⟨hvar, by rw [if_pos hvar], ?_⟩
  intro y hy
  unfold standardizeCells at hy
  rcases List.mem_map.mp hy with ⟨cell, hcell, rfl⟩
  have hc : cell = some c := hconst _ hcell
  subst hc
  have hne : validVals cells ≠ [] := by
    intro hnil
    have : c ∈ validVals cells := by
      unfold validVals
      exact List.mem_filterMap.mpr ⟨some c, hcell, rfl⟩
    rw [hnil] at this
    simp at this
  show some ((c - meanQ (validVals cells)) /
      (if popVarQ (validVals cells) = 0 then (1:ℚ)
        else sqrtQ (popVarQ (validVals cells)))) = some 0
  rw [if_pos hvar, meanQ_constant hvals hne]
  norm_num

/-- C10. A constant numeric column flows through the whole outlier stage
(any strategy, any thresholds) with all of its values intact, reaches the
standardizer with zero variance, where sklearn's zero-scale guard divides by
1 instead of 0, and comes out as the all-zero column. -/
theorem C10_constant_standardize (sqrtQ f : ℚ → ℚ) (df : DFrame)
    (cols : List String) (strat : String) (t m : ℚ) (col : String)
    (cells : List (Option ℚ)) (c : ℚ)
    (hnd : cols.Nodup)
    (hlook : alookup col df.numCols = some cells)
    (hconst : ∀ y ∈ cells, y = some c) :
    ∃ cells1,
      alookup col (processOutliersBackend f df cols strat t m).df.numCols
          = some cells1 ∧
        (∀ y ∈ cells1, y = some c) ∧
        popVarQ (validVals cells1) = 0 ∧
        (if popVarQ (validVals cells1) = 0 then (1:ℚ)
          else sqrtQ (popVarQ (validVals cells1))) = 1 ∧
        alookup col (standardizeTable sqrtQ
            (processOutliersBackend f df cols strat t m).df).numCols
          = some (standardizeCells sqrtQ cells1) ∧
        ∀ y ∈ standardizeCells sqrtQ cells1, y = some 0 := by
  have h0 : countTrue (combinedFlags cells t m) = 0 := combinedFlags_constant hconst t m
  -- the outlier stage leaves the column's cells a sublist of the original
  have hstage : ∃ cells1,
      alookup col (processOutliersBackend f df cols strat t m).df.numCols
        = some cells1 ∧ ∀ y ∈ cells1, y ∈ cells := by
    by_cases hr : strat = "remove"
    · subst hr
      obtain ⟨hdf, _, _, _⟩ := foldB_remove f t m cols ⟨df, [], []⟩
      set st := cols.foldl (stepColumnB f "remove" t m) ⟨df, [], []⟩ with hst
      have hdf' : st.df = df := hdf
      by_cases hre : st.removed = []
      · have hbranch : processOutliersBackend f df cols "remove" t m
            = ⟨st.df, st.summary, none⟩ := by
          unfold processOutliersBackend
          rw [← hst, if_neg (by simp [hre])]
        rw [hbranch]
        refine ⟨cells, ?_, fun y hy => hy⟩
        show alookup col st.df.numCols = some cells
        rw [hdf']
        exact hlook
      · have hbranch : (processOutliersBackend f df cols "remove" t m).df.numCols
            = st.df.numCols.map (fun p => (p.1, zipKeep p.2 (st.df.index.map
                (fun lbl => if lbl ∈ st.removed then false else true)))) := by
          unfold processOutliersBackend
          rw [← hst, if_pos ⟨rfl, hre⟩]
          rfl
        rw [hbranch, hdf']
        refine ⟨zipKeep cells (df.index.map
            (fun lbl => if lbl ∈ st.removed then false else true)), ?_,
          fun y hy => mem_zipKeep hy⟩
        have hmap := alookup_map_snd (fun cs => zipKeep cs (df.index.map
            (fun lbl => if lbl ∈ st.removed then false else true))) df.numCols col
        rw [hlook] at hmap
        exact hmap
    · obtain ⟨_, _, _, hlookF⟩ := foldB_spec f strat t m cols ⟨df, [], []⟩ hnd
      have hbranch : (processOutliersBackend f df cols strat t m).df
          = (cols.foldl (stepColumnB f strat t m) ⟨df, [], []⟩).df := by
        unfold processOutliersBackend
        rw [if_neg (fun hcontra => hr hcontra.1)]
      by_cases hmem : col ∈ cols
      · have hlk : alookup col (processOutliersBackend f df cols strat t m).df.numCols
            = some (oneColUpdate f strat t m cells) := by
          rw [hbranch, hlookF col, if_pos hmem]
          show Option.map _ (alookup col df.numCols) = _
          rw [hlook]
          rfl
        refine ⟨oneColUpdate f strat t m cells, hlk, ?_⟩
        unfold oneColUpdate
        by_cases h4 : validCount cells < 4
        · rw [if_pos h4]; exact fun y hy => hy
        · rw [if_neg h4, if_pos h0]; exact fun y hy => hy
      · have hlk : alookup col (processOutliersBackend f df cols strat t m).df.numCols
            = some cells := by
          rw [hbranch, hlookF col, if_neg hmem]
          show alookup col df.numCols = some cells
          exact hlook
        exact ⟨cells, hlk, fun y hy => hy⟩
  rcases hstage with ⟨cells1, hlk1, hsub⟩
  have hconst1 : ∀ y ∈ cells1, y = some c := fun y hy => hconst y (hsub y hy)
  obtain ⟨hvar, hscale, hzero⟩ := standardizeCells_constant sqrtQ hconst1
  refine ⟨cells1, hlk1, hconst1, hvar, hscale, ?_, hzero⟩
  unfold standardizeTable
  simp only [alookup_map_snd]
  rw [hlk1]
  rfl

/-- C10 witness at a concrete constant column alongside a text column. -/
theorem C10_constant_standardize_witness :
    ∃ cells1,
      alookup "a" (processOutliersBackend (fun v => v + 1) dfC10 ["a"] "cap"
          3 (3/2)).df.numCols = some cells1 ∧
        (∀ y ∈ cells1, y = some (5:ℚ)) ∧
        popVarQ (validVals cells1) = 0 ∧
        (if popVarQ (validVals cells1) = 0 then (1:ℚ)
          else (fun v => v + 2) (popVarQ (validVals cells1))) = 1 ∧
        alookup "a" (standardizeTable (fun v => v + 2)
            (processOutliersBackend (fun v => v + 1) dfC10 ["a"] "cap"
              3 (3/2)).df).numCols
          = some (standardizeCells (fun v => v + 2) cells1) ∧
        ∀ y ∈ standardizeCells (fun v => v + 2) cells1, y = some 0 :=
  C10_constant_standardize (fun v => v + 2) (fun v => v + 1) dfC10 ["a"] "cap"
    3 (3/2) "a" [some 5, some 5, some 5, some 5] 5
    (by decide) (by decide) (by decide)

/-! ## The missing-value imputer (C3) -/

theorem char_toNat_inj {x y : Char} (h : x.toNat = y.toNat) : x = y := by
  have hv : x.val = y.val := by
    apply UInt32.eq_of_val_eq
    apply Fin.ext
    exact h
  exact Char.eq_of_val_eq hv

theorem charListLt_trichotomy :
    ∀ (a b : List Char), charListLt a b = true ∨ a = b ∨ charListLt b a = true := by
  intro a
  induction a with
  | nil =>
    intro b
    cases b with
    | nil => exact Or.inr (Or.inl rfl)
    | cons y bs => exact Or.inl rfl
  | cons x as ih =>
    intro b
    cases b with
    | nil => exact Or.inr (Or.inr rfl)
    | cons y bs =>
      rcases Nat.lt_trichotomy x.toNat y.toNat with hxy | hxy | hxy
      · left
        rw [charListLt, if_pos hxy]
      · have hx : x = y := char_toNat_inj hxy
        subst hx
        rcases ih bs with h1 | h1 | h1
        · left
          rw [charListLt, if_neg (Nat.lt_irrefl _), if_pos rfl]
          exact h1
        · exact Or.inr (Or.inl (by rw [h1]))
        · right; right
          rw [charListLt, if_neg (Nat.lt_irrefl _), if_pos rfl]
          exact h1
      · right; right
        rw [charListLt, if_pos hxy]

theorem charListLe_iff :
    ∀ (a b : List Char), charListLe a b = true ↔ (charListLt a b = true ∨ a = b) := by
  intro a
  induction a with
  | nil =>
    intro b
    cases b with
    | nil => simp [charListLe, charListLt]
    | cons y bs => simp [charListLe, charListLt]
  | cons x as ih =>
    intro b
    cases b with
    | nil => simp [charListLe, charListLt]
    | cons y bs =>
      rw [charListLe, charListLt]
      by_cases hxy : x.toNat < y.toNat
      · simp [hxy]
      · rw [if_neg hxy, if_neg hxy]
        by_cases hxy2 : x.toNat = y.toNat
        · have hx : x = y := char_toNat_inj hxy2
          subst hx
          rw [if_pos rfl, if_pos rfl, ih bs]
          constructor
          · rintro (h | rfl)
            · exact Or.inl h
            · exact Or.inr rfl
          · rintro (h | h)
            · exact Or.inl h
            · injection h with h1 h2
              exact Or.inr h2
        · rw [if_neg hxy2, if_neg hxy2]
          constructor
          · intro h
            exact absurd h (by simp)
          · rintro (h | h)
            · exact absurd h (by simp)
            · injection h with h1 h2
              exact absurd (by rw [h1]) hxy2

theorem charListLe_refl (a : List Char) : charListLe a a = true :=
  (charListLe_iff a a).mpr (Or.inr rfl)

theorem charListLe_of_not_lt {a b : List Char} (h : charListLt a b = false) :
    charListLe b a = true := by
  rcases charListLt_trichotomy a b with h1 | h1 | h1
  · rw [h1] at h; exact absurd h (by simp)
  · subst h1; exact charListLe_refl a
  · exact (charListLe_iff b a).mpr (Or.inl h1)

theorem charListLe_trans {a b c : List Char} (h1 : charListLe a b = true)
    (h2 : charListLe b c = true) : charListLe a c = true := by
  rcases (charListLe_iff a b).mp h1 with hl | rfl
  · rcases (charListLe_iff b c).mp h2 with hl2 | rfl
    · exact (charListLe_iff a c).mpr (Or.inl (charListLt_trans hl hl2))
    · exact (charListLe_iff a b).mpr (Or.inl hl)
  · exact h2

theorem charListLe_of_lt {a b : List Char} (h : charListLt a b = true) :
    charListLe a b = true := (charListLe_iff a b).mpr (Or.inl h)

theorem charListLe_lt_trans {a b c : List Char} (h1 : charListLe a b = true)
    (h2 : charListLt b c = true) : charListLe a c = true :=
  charListLe_trans h1 (charListLe_of_lt h2)

theorem mfm_go (vals : List String) :
    ∀ (l : List String) (b : String),
      ∃ c, l.foldl (fun acc v =>
          match acc with
          | none => some v
          | some b =>
            if vals.count b < vals.count v ∨
                (vals.count v = vals.count b ∧ charListLt v.data b.data = true) then some v
            else some b) (some b) = some c ∧
        (c = b ∨ c ∈ l) ∧
        vals.count b ≤ vals.count c ∧
        (∀ v ∈ l, vals.count v ≤ vals.count c) ∧
        (vals.count b = vals.count c → charListLe c.data b.data = true) ∧
        (∀ v ∈ l, vals.count v = vals.count c → charListLe c.data v.data = true) := by
  intro l
  induction l with
  | nil =>
    intro b
    refine ⟨b, rfl, Or.inl rfl, le_refl _, ?_, ?_, ?_⟩
    · intro v hv; simp at hv
    · intro _; exact charListLe_refl _
    · intro v hv; simp at hv
  | cons v t ih =>
    intro b
    rw [List.foldl_cons]
    by_cases hcond : vals.count b < vals.count v ∨
        (vals.count v = vals.count b ∧ charListLt v.data b.data = true)
    · have hstep : (match some b with
          | none => some v
          | some b =>
            if vals.count b < vals.count v ∨
                (vals.count v = vals.count b ∧ charListLt v.data b.data = true) then some v
            else some b) = some v := by
        show (if vals.count b < vals.count v ∨
            (vals.count v = vals.count b ∧ charListLt v.data b.data = true) then some v
          else some b) = some v
        rw [if_pos hcond]
      rw [hstep]
      obtain ⟨c, hfold, hmem, hcnt, hall, htie, hties⟩ := ih v
      refine ⟨c, hfold, ?_, ?_, ?_, ?_, ?_⟩
      · rcases hmem with rfl | h
        · exact Or.inr (List.mem_cons_self _ _)
        · exact Or.inr (List.mem_cons_of_mem _ h)
      · rcases hcond with h | ⟨h, _⟩
        · exact le_trans (le_of_lt h) hcnt
        · exact le_trans (le_of_eq h.symm) hcnt
      · intro w hw
        rcases List.mem_cons.mp hw with rfl | hw2
        · exact hcnt
        · exact hall w hw2
      · intro heq
        have hvc : vals.count v ≤ vals.count c := hcnt
        rcases hcond with h | ⟨h, hlt⟩
        · omega
        · have hvq : vals.count v = vals.count c := by omega
          exact charListLe_lt_trans (htie hvq) hlt
      · intro w hw heq
        rcases List.mem_cons.mp hw with rfl | hw2
        · exact htie heq
        · exact hties w hw2 heq
    · have hstep : (match some b with
          | none => some v
          | some b =>
            if vals.count b < vals.count v ∨
                (vals.count v = vals.count b ∧ charListLt v.data b.data = true) then some v
            else some b) = some b := by
        show (if vals.count b < vals.count v ∨
            (vals.count v = vals.count b ∧ charListLt v.data b.data = true) then some v
          else some b) = some b
        rw [if_neg hcond]
      rw [hstep]
      obtain ⟨c, hfold, hmem, hcnt, hall, htie, hties⟩ := ih b
      push_neg at hcond
      obtain ⟨hle, hcond2⟩ := hcond
      refine ⟨c, hfold, ?_, hcnt, ?_, htie, ?_⟩
      · rcases hmem with rfl | h
        · exact Or.inl rfl
        · exact Or.inr (List.mem_cons_of_mem _ h)
      · intro w hw
        rcases List.mem_cons.mp hw with rfl | hw2
        · exact le_trans hle hcnt
        · exact hall w hw2
      · intro w hw heq
        rcases List.mem_cons.mp hw with rfl | hw2
        · have hwb : vals.count w = vals.count b := by omega
          have hnlt : charListLt w.data b.data = false := by
            by_cases hx : charListLt w.data b.data = true
            · exact absurd hx (hcond2 hwb)
            · exact Bool.eq_false_iff.mpr hx
          have hbw : charListLe b.data w.data = true := charListLe_of_not_lt hnlt
          exact charListLe_trans (htie (by omega)) hbw
        · exact hties w hw2 heq

/-- `df[col].mode()[0]` on a nonempty value list: the least value among those
of maximal multiplicity. -/
theorem mostFrequentMin_spec {vals : List String} (hne : vals ≠ []) :
    ∃ c, mostFrequentMin vals = some c ∧ c ∈ vals ∧
      (∀ v ∈ vals, vals.count v ≤ vals.count c) ∧
      (∀ v ∈ vals, vals.count v = vals.count c → charListLe c.data v.data = true) := by
  cases vals with
  | nil => exact absurd rfl hne
  | cons v t =>
    obtain ⟨c, hfold, hmem, hcnt, hall, htie, hties⟩ := mfm_go (v :: t) t v
    refine ⟨c, ?_, ?_, ?_, ?_⟩
    · unfold mostFrequentMin
      rw [List.foldl_cons]
      exact hfold
    · rcases hmem with rfl | h
      · exact List.mem_cons_self _ _
      · exact List.mem_cons_of_mem _ h
    · intro w hw
      rcases List.mem_cons.mp hw with rfl | hw2
      · exact hcnt
      · exact hall w hw2
    · intro w hw heq
      rcases List.mem_cons.mp hw with rfl | hw2
      · exact htie heq
      · exact hties w hw2 heq

/-- C3. On a table all of whose numeric columns keep at least one
non-missing value, the imputer leaves no missing cell: each numeric column's
missing cells are filled with the median of its non-missing values, each
text column's missing cells with its most frequent non-missing value (the
least such value in code-point order on a frequency tie), and `"Unknown"`
when a text column has no values at all. (The hypothesis is necessary: see
the counterexample, a numeric column emptied by the forced coercion.) -/
theorem C3_impute (df : DFrame)
    (hnum : ∀ p ∈ df.numCols, validVals p.2 ≠ []) :
    hasMissing (imputeTable df) = false ∧
    (imputeTable df).index = df.index ∧
    (imputeTable df).numCols = df.numCols.map (fun p =>
      (p.1, p.2.map (fun c => some (c.getD (medianQ (validVals p.2)))))) ∧
    (imputeTable df).strCols = df.strCols.map (fun p =>
      (p.1, p.2.map (fun c => some (c.getD
        ((mostFrequentMin (validStrs p.2)).getD "Unknown"))))) ∧
    (∀ p ∈ df.strCols, validStrs p.2 = [] →
      (mostFrequentMin (validStrs p.2)).getD "Unknown" = "Unknown") ∧
    (∀ p ∈ df.strCols, validStrs p.2 ≠ [] →
      ∃ b, mostFrequentMin (validStrs p.2) = some b ∧ b ∈ validStrs p.2 ∧
        (∀ v ∈ validStrs p.2, (validStrs p.2).count v ≤ (validStrs p.2).count b) ∧
        (∀ v ∈ validStrs p.2, (validStrs p.2).count v = (validStrs p.2).count b →
          charListLe b.data v.data = true)) := by
  refine ⟨?_, rfl, ?_, rfl, ?_, ?_⟩
  · show (((imputeTable df).numCols.any (fun p => p.2.any (fun c => c.isNone))) ||
      ((imputeTable df).strCols.any (fun p => p.2.any (fun c => c.isNone)))) = false
    rw [Bool.or_eq_false_iff]
    constructor
    · rw [List.any_eq_false]
      intro p hp
      rcases List.mem_map.mp hp with ⟨q, hq, rfl⟩
      show ¬ (imputeNumCells q.2).any (fun c => c.isNone) = true
      rw [imputeNumCells, if_neg (hnum q hq)]
      simp
    · rw [List.any_eq_false]
      intro p hp
      rcases List.mem_map.mp hp with ⟨q, hq, rfl⟩
      show ¬ (imputeStrCells q.2).any (fun c => c.isNone) = true
      unfold imputeStrCells
      simp
  · show df.numCols.map (fun p => (p.1, imputeNumCells p.2)) = _
    apply List.map_congr_left
    intro p hp
    rw [imputeNumCells, if_neg (hnum p hp)]
  · intro p _ hv
    rw [hv]
    rfl
  · intro p _ hv
    exact mostFrequentMin_spec hv

/-- C3 witness: a table with one missing numeric and one missing text cell. -/
theorem C3_impute_witness :
    hasMissing (imputeTable dfC3w) = false ∧
    (imputeTable dfC3w).index = dfC3w.index ∧
    (imputeTable dfC3w).numCols = dfC3w.numCols.map (fun p =>
      (p.1, p.2.map (fun c => some (c.getD (medianQ (validVals p.2)))))) ∧
    (imputeTable dfC3w).strCols = dfC3w.strCols.map (fun p =>
      (p.1, p.2.map (fun c => some (c.getD
        ((mostFrequentMin (validStrs p.2)).getD "Unknown"))))) ∧
    (∀ p ∈ dfC3w.strCols, validStrs p.2 = [] →
      (mostFrequentMin (validStrs p.2)).getD "Unknown" = "Unknown") ∧
    (∀ p ∈ dfC3w.strCols, validStrs p.2 ≠ [] →
      ∃ b, mostFrequentMin (validStrs p.2) = some b ∧ b ∈ validStrs p.2 ∧
        (∀ v ∈ validStrs p.2, (validStrs p.2).count v ≤ (validStrs p.2).count b) ∧
        (∀ v ∈ validStrs p.2, (validStrs p.2).count v = (validStrs p.2).count b →
          charListLe b.data v.data = true)) :=
  C3_impute dfC3w (by decide)

/-- C3 counterexample: a text column named `age` whose values do not parse
as numbers is not empty, survives empty-column removal, is wiped to
all-missing by the forced numeric coercion, and then stays missing through
the imputer (the median of no values fills nothing), refuting the
unconditional no-missing-cells guarantee. -/
theorem C3_counterexample :
    hasMissing (imputeTable (coerceNamed (dropEmptyCols dfC3))) = true := by
  decide

/-! ## The datetime parser (C8) -/

/-- C8. `try_parse_date` tries the six explicit formats in source order and
the first that parses wins; when all six fail it falls back to
auto-detection with `dayfirst=True` (`auto1`), then `dayfirst=False`
(`auto2`), and a value every attempt rejects becomes the missing-date
marker rather than an error; the column stage is the total cell-wise map of
this parser. -/
theorem C8_datetime (auto1 auto2 : String → Option PDate) (s : String) :
    (∀ i (hi : i < dateFormats.length) (d : PDate),
      (∀ j (hj : j < i),
        parseWithFmt (dateFormats.get ⟨j, Nat.lt_trans hj hi⟩) s = none) →
      parseWithFmt (dateFormats.get ⟨i, hi⟩) s = some d →
      tryParseDate auto1 auto2 s = some d) ∧
    ((∀ f ∈ dateFormats, parseWithFmt f s = none) → ∀ d, auto1 s = some d →
      tryParseDate auto1 auto2 s = some d) ∧
    ((∀ f ∈ dateFormats, parseWithFmt f s = none) → auto1 s = none →
      tryParseDate auto1 auto2 s = auto2 s) ∧
    (∀ cells : List (Option String),
      parseDatetimeColumn auto1 auto2 cells
        = cells.map (fun c => Option.bind c (tryParseDate auto1 auto2))) := by
  refine ⟨?_, ?_, ?_, ?_⟩
  · intro i hi d hprev hsucc
    have hi6 : i < 6 := hi
    interval_cases i
    · simp only [tryParseDate, show parseWithFmt .ymdDash s = some d from hsucc]
    · have h0 : parseWithFmt .ymdDash s = none := hprev 0 (by omega)
      simp only [tryParseDate, h0,
        show parseWithFmt .ymdSlash s = some d from hsucc]
    · have h0 : parseWithFmt .ymdDash s = none := hprev 0 (by omega)
      have h1 : parseWithFmt .ymdSlash s = none := hprev 1 (by omega)
      simp only [tryParseDate, h0, h1,
        show parseWithFmt .mdySlash s = some d from hsucc]
    · have h0 : parseWithFmt .ymdDash s = none := hprev 0 (by omega)
      have h1 : parseWithFmt .ymdSlash s = none := hprev 1 (by omega)
      have h2 : parseWithFmt .mdySlash s = none := hprev 2 (by omega)
      simp only [tryParseDate, h0, h1, h2,
        show parseWithFmt .dmySlash s = some d from hsucc]
    · have h0 : parseWithFmt .ymdDash s = none := hprev 0 (by omega)
      have h1 : parseWithFmt .ymdSlash s = none := hprev 1 (by omega)
      have h2 : parseWithFmt .mdySlash s = none := hprev 2 (by omega)
      have h3 : parseWithFmt .dmySlash s = none := hprev 3 (by omega)
      simp only [tryParseDate, h0, h1, h2, h3,
        show parseWithFmt .dmyDash s = some d from hsucc]
    · have h0 : parseWithFmt .ymdDash s = none := hprev 0 (by omega)
      have h1 : parseWithFmt .ymdSlash s = none := hprev 1 (by omega)
      have h2 : parseWithFmt .mdySlash s = none := hprev 2 (by omega)
      have h3 : parseWithFmt .dmySlash s = none := hprev 3 (by omega)
      have h4 : parseWithFmt .dmyDash s = none := hprev 4 (by omega)
      simp only [tryParseDate, h0, h1, h2, h3, h4,
        show parseWithFmt .mdyDash s = some d from hsucc]
  · intro hall d hd
    have h0 : parseWithFmt .ymdDash s = none := hall _ (by decide)
    have h1 : parseWithFmt .ymdSlash s = none := hall _ (by decide)
    have h2 : parseWithFmt .mdySlash s = none := hall _ (by decide)
    have h3 : parseWithFmt .dmySlash s = none := hall _ (by decide)
    have h4 : parseWithFmt .dmyDash s = none := hall _ (by decide)
    have h5 : parseWithFmt .mdyDash s = none := hall _ (by decide)
    simp only [tryParseDate, h0, h1, h2, h3, h4, h5, hd]
  · intro hall hauto1
    have h0 : parseWithFmt .ymdDash s = none := hall _ (by decide)
    have h1 : parseWithFmt .ymdSlash s = none := hall _ (by decide)
    have h2 : parseWithFmt .mdySlash s = none := hall _ (by decide)
    have h3 : parseWithFmt .dmySlash s = none := hall _ (by decide)
    have h4 : parseWithFmt .dmyDash s = none := hall _ (by decide)
    have h5 : parseWithFmt .mdyDash s = none := hall _ (by decide)
    simp only [tryParseDate, h0, h1, h2, h3, h4, h5, hauto1]
    cases ha : auto2 s <;> rfl
  · intro cells
    unfold parseDatetimeColumn
    apply List.map_congr_left
    intro c _
    cases c <;> rfl

/-- C8 witness: `"15/03/2024"` fails the first three formats, parses under
the fourth (`%d/%m/%Y`), and a string no format nor fallback accepts maps
to the missing-date marker. -/
theorem C8_datetime_witness :
    tryParseDate (fun _ => none) (fun _ => none) "15/03/2024"
        = some (⟨2024, 3, 15⟩ : PDate) ∧
      tryParseDate (fun _ => none) (fun _ => none) "nodate"
        = (none : Option PDate) :=
  ⟨(C8_datetime (fun _ => none) (fun _ => none) "15/03/2024").1 3 (by decide)
      ⟨2024, 3, 15⟩ (fun j hj => by
        interval_cases j
        · show parseWithFmt .ymdDash "15/03/2024" = none
          decide
        · show parseWithFmt .ymdSlash "15/03/2024" = none
          decide
        · show parseWithFmt .mdySlash "15/03/2024" = none
          decide)
      (show parseWithFmt .dmySlash "15/03/2024"
          = some (⟨2024, 3, 15⟩ : PDate) by decide),
    (C8_datetime (fun _ => none) (fun _ => none) "nodate").2.2.1
      (fun f hf => by rw [dateFormats] at hf; fin_cases hf <;> decide) rfl⟩

end CleanCSV
